import Mathlib

/-!
Verification of the SDLC workflow scripts and the 3D-model generation script.

Shallow embedding conventions:
* Python `str` is modelled by Lean `String` (a wrapper around `List Char`);
  grammar functions work on `String.data`.
* Character classes of the Python regexes (`\d`, `[A-Z]`, `[a-z0-9-]`, `\s`)
  are modelled at the ASCII level, matching the data the scripts consume.
* The regex anchors `^` and `$` are modelled as start/end of the string.
* Filesystem state is passed explicitly: the stories directory is
  `Option (List String)` (absent, or the list of `*.md` file names produced
  by `rglob`), and a generic file store is an association list from path to
  content.
* A Python function that raises is modelled with `Except String`.
-/

/-! ## ASCII character classes -/

/-- ASCII decimal digit, the model of the regex class `\d`. -/
def isDig (c : Char) : Bool := 48 ≤ c.toNat && c.toNat ≤ 57

/-- ASCII uppercase letter, the model of the regex class `[A-Z]`. -/
def isUp (c : Char) : Bool := 65 ≤ c.toNat && c.toNat ≤ 90

/-- ASCII lowercase letter, the model of the regex class `[a-z]`. -/
def isLo (c : Char) : Bool := 97 ≤ c.toNat && c.toNat ≤ 122

/-- The class `[a-z0-9-]` used both by `slugify` (as the complement of the
characters it removes) and by the semantic-name segment of the branch
pattern. -/
def isSlugChar (c : Char) : Bool := isLo c || isDig c || c = '-'

/-- ASCII whitespace, the model of the regex class `\s` on the inputs the
scripts consume. -/
def pyIsSpace (c : Char) : Bool :=
  c = ' ' || c = '\t' || c = '\n' || c = '\r' || c = '\x0b' || c = '\x0c'

/-- ASCII lowering of a single character, the model of `str.lower` on the
ASCII inputs the scripts consume. -/
def toLowerAscii (c : Char) : Char :=
  if isUp c then Char.ofNat (c.toNat + 32) else c

/-- Python truthiness of an optional string argument (`if story_id:` is
false for both `None` and the empty string). -/
def pyTruthy (o : Option String) : Bool := !(o.getD "" == "")

/-! ## Generic list helpers -/

/-- Strip `pre` from the front of `cs`, returning the rest on success. -/
def dropStart : List Char → List Char → Option (List Char)
  | [], cs => some cs
  | _ :: _, [] => none
  | p :: ps, c :: cs => if c = p then dropStart ps cs else none

/-- Does `pat` occur at the start of `cs`? -/
def startsWithL (pat cs : List Char) : Bool := (dropStart pat cs).isSome

/-- Does `pat` occur anywhere inside `cs`?  Model of Python's `in`. -/
def hasInfixL (pat : List Char) : List Char → Bool
  | [] => pat.isEmpty
  | c :: rest => startsWithL pat (c :: rest) || hasInfixL pat rest

/-- String-level substring containment, model of Python `sub in s`. -/
def containsSub (s sub : String) : Bool := hasInfixL sub.data s.data

/-- One step of left-to-right, non-overlapping replacement of `old` by
`new`.  The fuel argument only drives structural recursion; it is chosen
`≥` the list length at the call site, so it never runs out. -/
def replaceGo (old new : List Char) : Nat → List Char → List Char
  | 0, cs => cs
  | _ + 1, [] => []
  | fuel + 1, c :: rest =>
    match dropStart old (c :: rest) with
    | some r => new ++ replaceGo old new fuel r
    | none => c :: replaceGo old new fuel rest

/-- Model of Python `s.replace(old, new)` (all non-overlapping occurrences,
left to right). -/
def pyReplace (s old new : String) : String :=
  String.mk (replaceGo old.data new.data s.data.length s.data)

/-- First-match lookup in an association list, the model of a Python dict
read (keys are unique by construction wherever we use it). -/
def lookupA {α : Type} (k : String) : List (String × α) → Option α
  | [] => none
  | (k', v) :: rest => if k' = k then some v else lookupA k rest

/-- Boolean membership in a list of strings. -/
def memb (x : String) : List String → Bool
  | [] => false
  | y :: rest => x = y || memb x rest

theorem memb_iff (x : String) (l : List String) : memb x l = true ↔ x ∈ l := by
  induction l with
  | nil => simp [memb]
  | cons y rest ih => simp [memb, ih]

theorem dropStart_eq_some {pre cs r : List Char} :
    dropStart pre cs = some r ↔ cs = pre ++ r := by
  induction pre generalizing cs with
  | nil => simp [dropStart]
  | cons p ps ih =>
    cases cs with
    | nil => simp [dropStart]
    | cons c cs' =>
      by_cases h : c = p
      · subst h; simp [dropStart, ih]
      · simp [dropStart, h, Ne.symm h]

/-! ## story_create.py

The stories directory is modelled as `Option (List String)`: `none` when the
directory does not exist, `some files` when it exists and `rglob "*.md"`
yields the (base) names in `files`.  The scripts only ever inspect
`md_file.name`, so file names are what we carry. -/

abbrev StoriesDir := Option (List String)

/-- Attempt of the regex `US-(\d{3})([A-Z]?)` at the start of `cs`
(the semantics of `pattern.match`): on success returns the captured base
digits and the optional uppercase suffix.  The optional group is greedy, as
in Python. -/
def usMatchAt : List Char → Option (String × String)
  | u :: s :: dash :: d1 :: d2 :: d3 :: rest =>
    if u == 'U' && s == 'S' && dash == '-' && isDig d1 && isDig d2 && isDig d3 then
      some (String.mk [d1, d2, d3],
        match rest with
        | c :: _ => if isUp c then String.mk [c] else ""
        | [] => "")
    else none
  | _ => none

/-- Leftmost search of the regex `US-(\d{3})([A-Z]?)` (the semantics of
`pattern.search`): try every position left to right. -/
def usSearch : List Char → Option (String × String)
  | [] => none
  | c :: rest =>
    match usMatchAt (c :: rest) with
    | some r => some r
    | none => usSearch rest

/-- Append a variant to the association list `base id -> variants`,
modelling `story_ids[base_id].append(full_id)` with the
`if base_id not in story_ids` initialisation. -/
def insertVariant : List (String × List String) → String → String →
    List (String × List String)
  | [], b, v => [(b, [v])]
  | (k, vs) :: rest, b, v =>
    if k = b then (k, vs ++ [v]) :: rest else (k, vs) :: insertVariant rest b v

/-- One iteration of the scan loop of `get_all_story_ids`: skip
`TEMPLATE.md` and `README.md`, otherwise search the file name for a story
id and record it. -/
def scanStep (acc : List (String × List String)) (name : String) :
    List (String × List String) :=
  if name = "TEMPLATE.md" ∨ name = "README.md" then acc
  else
    match usSearch name.data with
    | none => acc
    | some (base, suffix) =>
      insertVariant acc base ("US-" ++ base ++ suffix)

/-- Model of `get_all_story_ids`: scan the story file names, skipping
`TEMPLATE.md` and `README.md`, and collect every embedded story id grouped
by its base digits.  Returns `[]` when the stories directory is absent. -/
def get_all_story_ids (dir : StoriesDir) : List (String × List String) :=
  match dir with
  | none => []
  | some files => files.foldl scanStep []

/-- All full story ids occurring in the scan result. -/
def allVariants (m : List (String × List String)) : List String :=
  (m.map Prod.snd).flatten

/-- Numeric value of a string of ASCII digits, model of Python `int`. -/
def digitsVal (cs : List Char) : Nat :=
  cs.foldl (fun a c => a * 10 + (c.toNat - 48)) 0

/-- Model of the format string `f"US-{n:03d}"`: pad with zeros to at least
three digits. -/
def pad3 (n : Nat) : String :=
  if n < 10 then "00" ++ toString n
  else if n < 100 then "0" ++ toString n
  else toString n

/-- Model of `get_next_story_id`: `US-001` when no stories exist, otherwise
one past the maximal base id. -/
def get_next_story_id (dir : StoriesDir) : String :=
  let ids := get_all_story_ids dir
  if ids.isEmpty then "US-001"
  else
    let maxId := ids.foldl (fun m kv => Nat.max m (digitsVal kv.1.data)) 0
    "US-" ++ pad3 (maxId + 1)

/-- Insertion sort of the scan result by base id, model of
`sorted(story_ids.items())` (keys are three-digit strings, so string order
is digit order). -/
def insertSorted (kv : String × List String) :
    List (String × List String) → List (String × List String)
  | [] => [kv]
  | kv' :: rest =>
    if kv.1 ≤ kv'.1 then kv :: kv' :: rest else kv' :: insertSorted kv rest

/-- Model of `sorted` on the items of the scan result. -/
def sortByKey (m : List (String × List String)) :
    List (String × List String) :=
  m.foldr insertSorted []

/-- Model of `validate_story_id_unique`: parse the requested id with the
anchored `US-(\d{3})([A-Z]?)` pattern, then check whether this exact id is
among the variants recorded for its base. -/
def validate_story_id_unique (dir : StoriesDir) (story_id : String) :
    Bool × String :=
  let story_ids := get_all_story_ids dir
  match usMatchAt story_id.data with
  | none => (false, "Invalid story ID format: " ++ story_id)
  | some (base_id, _suffix) =>
    match lookupA base_id story_ids with
    | some existing_variants =>
      if memb story_id existing_variants then
        (false, "Story ID " ++ story_id ++ " already exists: " ++
          String.intercalate ", " existing_variants)
      else (true, "")
    | none => (true, "")

/-- Model of the anchored format check `re.match(r"US-\d{3}$", story_id)`:
exactly `US-` followed by three ASCII digits. -/
def storyIdFormatOk (s : String) : Bool :=
  match s.data with
  | ['U', 'S', '-', d1, d2, d3] => isDig d1 && isDig d2 && isDig d3
  | _ => false

/-- Model of the suffix check `re.match(r"^[A-Z]$", suffix)`: exactly one
uppercase ASCII letter. -/
def suffixFormatOk (s : String) : Bool :=
  match s.data with
  | [c] => isUp c
  | _ => false

/-- A full story id in the documented shape `US-###` optionally followed by
one uppercase letter. -/
def validFullId (s : String) : Bool :=
  match s.data with
  | ['U', 'S', '-', d1, d2, d3] => isDig d1 && isDig d2 && isDig d3
  | ['U', 'S', '-', d1, d2, d3, c] => isDig d1 && isDig d2 && isDig d3 && isUp c
  | _ => false

/-! `slugify`: the five-step pipeline of `story_create.py` lines 118-134. -/

/-- Model of `re.sub(r"[\s_]+", "-", text)`: each maximal run of whitespace
or underscores becomes a single hyphen.  The flag records whether the
previous character belonged to such a run. -/
def replWsGo (prev : Bool) : List Char → List Char
  | [] => []
  | c :: rest =>
    if pyIsSpace c || c = '_' then
      if prev then replWsGo true rest else '-' :: replWsGo true rest
    else c :: replWsGo false rest

/-- Model of `re.sub(r"-+", "-", text)`: each maximal run of hyphens
becomes a single hyphen. -/
def collapseHyphGo (prev : Bool) : List Char → List Char
  | [] => []
  | c :: rest =>
    if c = '-' then
      if prev then collapseHyphGo true rest else '-' :: collapseHyphGo true rest
    else c :: collapseHyphGo false rest

/-- Model of `text.strip("-")`: drop hyphens from both ends. -/
def stripHyph (l : List Char) : List Char :=
  ((l.dropWhile (· = '-')).reverse.dropWhile (· = '-')).reverse

/-- Model of `slugify`: lowercase, squash whitespace/underscore runs into
hyphens, drop characters outside `[a-z0-9-]`, squash hyphen runs, strip
end hyphens. -/
def slugify (text : String) : String :=
  String.mk (stripHyph (collapseHyphGo false
    ((replWsGo false (text.data.map toLowerAscii)).filter isSlugChar)))

/-- Result of a successful `create_story` call: final story id, created
file name, and the instantiated template content. -/
structure CreatedStory where
  finalId : String
  filename : String
  content : String
  deriving Repr, DecidableEq

/-- Model of `create_story`.  The stories directory state (including
whether `TEMPLATE.md` exists), the template content and the current date
are explicit inputs; raising an exception is returning `Except.error`, and
an error result creates nothing.  The final file-existence check is made
against the scanned name list. -/
def create_story (dir : StoriesDir) (domain title story_type priority : String)
    (story_id suffix : Option String) (templateContent currentDate : String) :
    Except String CreatedStory :=
  let templateExists := match dir with
    | none => false
    | some files => memb "TEMPLATE.md" files
  if !templateExists then .error "Template not found"
  else if pyTruthy story_id && !storyIdFormatOk (story_id.getD "") then
    .error ("Invalid story ID format: " ++ story_id.getD "" ++
      ". Expected: US-XXX (e.g., US-042)")
  else
    let baseId := if pyTruthy story_id then story_id.getD ""
      else get_next_story_id dir
    if pyTruthy suffix && !suffixFormatOk (suffix.getD "") then
      .error ("Invalid suffix: " ++ suffix.getD "" ++
        ". Must be single uppercase letter (A-Z)")
    else
      let finalStoryId := if pyTruthy suffix then baseId ++ suffix.getD ""
        else baseId
      if !(validate_story_id_unique dir finalStoryId).1 then
        let story_ids := sortByKey (get_all_story_ids dir)
        let existingInfo := String.intercalate "\n" (story_ids.map fun kv =>
          "  - " ++ kv.1 ++ ": " ++ String.intercalate ", " kv.2)
        .error ((validate_story_id_unique dir finalStoryId).2 ++
          "\n\nExisting story IDs:\n" ++ existingInfo ++
          "\n\nSuggestions:\n  - Use next sequential ID: " ++
          get_next_story_id dir ++
          "\n  - Add suffix to related story: " ++
          (if pyTruthy suffix then finalStoryId.dropRight 1 else finalStoryId) ++
          "B\n  - Fill a gap: US-002 to US-015 are available")
      else
        let filename := finalStoryId ++ "-" ++ domain ++ "-" ++
          slugify title ++ ".md"
        if (match dir with
            | none => false
            | some files => memb filename files) then
          .error ("Story already exists: " ++ filename)
        else
          .ok ⟨finalStoryId, filename,
            pyReplace (pyReplace (pyReplace (pyReplace (pyReplace (pyReplace
              templateContent "{story_id}" finalStoryId)
              "{title}" title) "{domain}" domain)
              "{type}" story_type) "{priority}" priority)
              "{date}" currentDate⟩

/-! ## Theorems about the story scan (C4, C5) -/

/-- C4: if the stories root directory does not exist, `get_all_story_ids`
returns the empty mapping rather than raising any error. -/
theorem scan_missing_root_empty : get_all_story_ids none = [] := rfl

theorem foldl_scanStep_filter_template (files : List String)
    (acc : List (String × List String)) :
    (files.filter (fun n => n != "TEMPLATE.md")).foldl scanStep acc =
    files.foldl scanStep acc := by
  induction files generalizing acc with
  | nil => rfl
  | cons n rest ih =>
    by_cases h : n = "TEMPLATE.md"
    · subst h
      simpa [List.filter_cons, scanStep] using ih acc
    · simp [List.filter_cons, h, ih]

/-- C5: a file named exactly `TEMPLATE.md` never contributes a story id:
the scan result over any file list equals the scan result with all
`TEMPLATE.md` entries removed, whatever pattern such names might embed. -/
theorem template_files_ignored (files : List String) :
    get_all_story_ids (some files) =
    get_all_story_ids (some (files.filter (fun n => n != "TEMPLATE.md"))) :=
  (foldl_scanStep_filter_template files []).symm

/-! ## Theorems about create_story id validation (C6) -/

theorem data_append (s t : String) : (s ++ t).data = s.data ++ t.data := rfl

theorem storyIdFormatOk_shape {b : String} (h : storyIdFormatOk b = true) :
    ∃ d1 d2 d3, b.data = ['U', 'S', '-', d1, d2, d3] ∧
      isDig d1 = true ∧ isDig d2 = true ∧ isDig d3 = true := by
  unfold storyIdFormatOk at h
  split at h
  · rename_i d1 d2 d3 heq
    simp only [Bool.and_eq_true] at h
    exact ⟨d1, d2, d3, heq, h.1.1, h.1.2, h.2⟩
  · exact absurd h (by simp)

theorem suffixFormatOk_shape {s : String} (h : suffixFormatOk s = true) :
    ∃ c, s.data = [c] ∧ isUp c = true := by
  unfold suffixFormatOk at h
  split at h
  · rename_i c heq
    exact ⟨c, heq, h⟩
  · exact absurd h (by simp)

theorem validFullId_base {b : String} (h : storyIdFormatOk b = true) :
    validFullId b = true := by
  obtain ⟨d1, d2, d3, heq, h1, h2, h3⟩ := storyIdFormatOk_shape h
  unfold validFullId
  rw [heq]
  simp [h1, h2, h3]

theorem validFullId_suffixed {b s : String} (hb : storyIdFormatOk b = true)
    (hs : suffixFormatOk s = true) : validFullId (b ++ s) = true := by
  obtain ⟨d1, d2, d3, heq, h1, h2, h3⟩ := storyIdFormatOk_shape hb
  obtain ⟨c, heqs, hc⟩ := suffixFormatOk_shape hs
  unfold validFullId
  rw [data_append, heq, heqs]
  simp [h1, h2, h3, hc]

/-- C6: with an explicitly supplied story id, `create_story` accepts the id
only when it is `US-` plus exactly three digits, accepts a supplied suffix
only when it is one uppercase letter, and every id it creates under an
explicit request has the documented `US-###`-plus-optional-letter shape. -/
theorem create_story_id_format (dir : StoriesDir)
    (domain title story_type priority : String)
    (story_id suffix : Option String) (tmpl date : String) :
    (pyTruthy story_id = true → storyIdFormatOk (story_id.getD "") = false →
      (create_story dir domain title story_type priority story_id suffix
        tmpl date).isOk = false)
    ∧ (pyTruthy suffix = true → suffixFormatOk (suffix.getD "") = false →
      (create_story dir domain title story_type priority story_id suffix
        tmpl date).isOk = false)
    ∧ (pyTruthy story_id = true →
      ∀ r, create_story dir domain title story_type priority story_id suffix
        tmpl date = .ok r → validFullId r.finalId = true) := by
  refine ⟨?_, ?_, ?_⟩
  · intro h1 h2
    simp only [create_story]
    split
    · rfl
    · rw [if_pos (show (pyTruthy story_id &&
        !storyIdFormatOk (story_id.getD "")) = true by simp [h1, h2])]
      rfl
  · intro h1 h2
    simp only [create_story]
    split
    · rfl
    · split
      · rfl
      · rw [if_pos (show (pyTruthy suffix &&
          !suffixFormatOk (suffix.getD "")) = true by simp [h1, h2])]
        rfl
  · intro h1 r hok
    simp only [create_story] at hok
    split at hok
    · exact absurd hok (by simp)
    by_cases hfmt : storyIdFormatOk (story_id.getD "") = true
    case neg =>
      rw [if_pos (show (pyTruthy story_id &&
        !storyIdFormatOk (story_id.getD "")) = true by simp [h1, hfmt])] at hok
      exact absurd hok (by simp)
    rw [if_neg (show ¬(pyTruthy story_id &&
      !storyIdFormatOk (story_id.getD "")) = true by simp [hfmt])] at hok
    by_cases hsfx : pyTruthy suffix = true
    · by_cases hsok : suffixFormatOk (suffix.getD "") = true
      · rw [if_neg (show ¬(pyTruthy suffix &&
          !suffixFormatOk (suffix.getD "")) = true by simp [hsok])] at hok
        rw [if_pos hsfx] at hok
        split at hok
        · exact absurd hok (by simp)
        · split at hok
          · exact absurd hok (by simp)
          · injection hok with hr
            rw [← hr]
            exact validFullId_suffixed hfmt hsok
      · rw [if_pos (show (pyTruthy suffix &&
          !suffixFormatOk (suffix.getD "")) = true by simp [hsfx, hsok])] at hok
        exact absurd hok (by simp)
    · rw [if_neg (show ¬(pyTruthy suffix &&
        !suffixFormatOk (suffix.getD "")) = true by simp [hsfx])] at hok
      rw [if_neg hsfx] at hok
      split at hok
      · exact absurd hok (by simp)
      · split at hok
        · exact absurd hok (by simp)
        · injection hok with hr
          rw [← hr]
          exact validFullId_base hfmt

/-- Witness for the C6 theorem at concrete inputs: a malformed explicit id
is rejected, a malformed suffix is rejected, and a successful explicit
creation carries a well-formed id. -/
theorem create_story_id_format_witness :
    (create_story (some ["TEMPLATE.md"]) "auth" "T" "feature" "high"
      (some "US-01") none "tc" "d").isOk = false
    ∧ (create_story (some ["TEMPLATE.md"]) "auth" "T" "feature" "high"
      (some "US-002") (some "b") "tc" "d").isOk = false := by
  constructor
  · exact (create_story_id_format (some ["TEMPLATE.md"]) "auth" "T" "feature"
      "high" (some "US-01") none "tc" "d").1 (by decide) (by decide)
  · exact (create_story_id_format (some ["TEMPLATE.md"]) "auth" "T" "feature"
      "high" (some "US-002") (some "b") "tc" "d").2.1 (by decide) (by decide)

/-! ## Theorems about story id uniqueness (C1) -/

/-- A variant stored under base key `b` always has the literal shape
`US-` ++ `b` with an optional single uppercase letter. -/
def goodVariant (b v : String) : Prop :=
  v = "US-" ++ b ∨ ∃ c, isUp c = true ∧ v = "US-" ++ b ++ String.mk [c]

/-- Shape invariant of one entry of the scan result. -/
def goodEntry (kv : String × List String) : Prop :=
  (∃ d1 d2 d3, kv.1 = String.mk [d1, d2, d3] ∧
    isDig d1 = true ∧ isDig d2 = true ∧ isDig d3 = true) ∧
  ∀ v ∈ kv.2, goodVariant kv.1 v

/-- Keys of the scan result. -/
abbrev keysOf (m : List (String × List String)) : List String :=
  m.map Prod.fst

/-- Invariant of the whole scan result: distinct base keys, well-shaped
entries. -/
def goodScan (m : List (String × List String)) : Prop :=
  (keysOf m).Nodup ∧ ∀ kv ∈ m, goodEntry kv

theorem usMatchAt_spec {cs : List Char} {base suffix : String}
    (h : usMatchAt cs = some (base, suffix)) :
    (∃ d1 d2 d3, base = String.mk [d1, d2, d3] ∧
      isDig d1 = true ∧ isDig d2 = true ∧ isDig d3 = true)
    ∧ (suffix = "" ∨ ∃ c, isUp c = true ∧ suffix = String.mk [c]) := by
  unfold usMatchAt at h
  split at h
  · rename_i u s dash d1 d2 d3 rest
    split at h
    · rename_i hd
      simp only [Option.some.injEq, Prod.mk.injEq] at h
      obtain ⟨hb, hsfx⟩ := h
      simp only [Bool.and_eq_true] at hd
      refine ⟨⟨d1, d2, d3, hb.symm, hd.1.1.2, hd.1.2, hd.2⟩, ?_⟩
      cases rest with
      | nil => exact Or.inl hsfx.symm
      | cons c rest' =>
        by_cases hc : isUp c = true
        · exact Or.inr ⟨c, hc, by rw [← hsfx]; simp [hc]⟩
        · exact Or.inl (by rw [← hsfx]; simp [hc])
    · exact absurd h (by simp)
  · exact absurd h (by simp)

theorem usSearch_spec {cs : List Char} {base suffix : String}
    (h : usSearch cs = some (base, suffix)) :
    (∃ d1 d2 d3, base = String.mk [d1, d2, d3] ∧
      isDig d1 = true ∧ isDig d2 = true ∧ isDig d3 = true)
    ∧ (suffix = "" ∨ ∃ c, isUp c = true ∧ suffix = String.mk [c]) := by
  induction cs with
  | nil => exact absurd h (by simp [usSearch])
  | cons c rest ih =>
    rw [usSearch] at h
    split at h
    · rename_i r heq
      cases h
      exact usMatchAt_spec heq
    · exact ih h

theorem keysOf_insertVariant (m : List (String × List String)) (b v : String) :
    keysOf (insertVariant m b v) =
    if b ∈ keysOf m then keysOf m else keysOf m ++ [b] := by
  induction m with
  | nil => simp [insertVariant]
  | cons kv rest ih =>
    obtain ⟨k, vs⟩ := kv
    by_cases h : k = b
    · subst h
      simp [insertVariant]
    · simp only [insertVariant, if_neg h, List.map_cons]
      simp only [keysOf] at ih
      rw [ih]
      by_cases hmem : b ∈ rest.map Prod.fst
      · simp [List.mem_cons, hmem, Ne.symm h]
      · simp [List.mem_cons, hmem, Ne.symm h]

theorem goodScan_insertVariant {m : List (String × List String)} {b v : String}
    (hm : goodScan m)
    (hb : ∃ d1 d2 d3, b = String.mk [d1, d2, d3] ∧
      isDig d1 = true ∧ isDig d2 = true ∧ isDig d3 = true)
    (hv : goodVariant b v) :
    goodScan (insertVariant m b v) := by
  induction m with
  | nil =>
    refine ⟨by simp [insertVariant], ?_⟩
    intro kv hkv
    simp only [insertVariant, List.mem_singleton] at hkv
    subst hkv
    refine ⟨hb, ?_⟩
    intro v' hv'
    simp only [List.mem_singleton] at hv'
    subst hv'
    exact hv
  | cons kv rest ih =>
    obtain ⟨k, vs⟩ := kv
    obtain ⟨hnd, hgood⟩ := hm
    rw [show keysOf ((k, vs) :: rest) = k :: keysOf rest from rfl,
      List.nodup_cons] at hnd
    obtain ⟨hknot, hndrest⟩ := hnd
    by_cases h : k = b
    · subst h
      have hstep : insertVariant ((k, vs) :: rest) k v =
          (k, vs ++ [v]) :: rest := by simp [insertVariant]
      constructor
      · rw [hstep, show keysOf ((k, vs ++ [v]) :: rest) = k :: keysOf rest
          from rfl, List.nodup_cons]
        exact ⟨hknot, hndrest⟩
      · intro kv' hkv'
        rw [hstep] at hkv'
        rcases List.mem_cons.mp hkv' with heq | hmem
        · subst heq
          have hke := hgood (k, vs) (List.mem_cons_self _ _)
          refine ⟨hke.1, ?_⟩
          intro v' hv'
          rcases List.mem_append.mp hv' with h1 | h1
          · exact hke.2 v' h1
          · rw [List.mem_singleton] at h1
            subst h1
            exact hv
        · exact hgood kv' (List.mem_cons_of_mem _ hmem)
    · have hrest : goodScan rest :=
        ⟨hndrest, fun kv' hkv' => hgood kv' (List.mem_cons_of_mem _ hkv')⟩
      obtain ⟨ihnd, ihgood⟩ := ih hrest
      have hstep : insertVariant ((k, vs) :: rest) b v =
          (k, vs) :: insertVariant rest b v := by simp [insertVariant, h]
      constructor
      · rw [hstep, show keysOf ((k, vs) :: insertVariant rest b v) =
          k :: keysOf (insertVariant rest b v) from rfl, List.nodup_cons]
        refine ⟨?_, ihnd⟩
        rw [keysOf_insertVariant]
        by_cases hmem : b ∈ keysOf rest
        · rw [if_pos hmem]
          exact hknot
        · rw [if_neg hmem, List.mem_append]
          rintro (hc | hc)
          · exact hknot hc
          · rw [List.mem_singleton] at hc
            exact h hc
      · intro kv' hkv'
        rw [hstep] at hkv'
        rcases List.mem_cons.mp hkv' with heq | hmem
        · subst heq
          exact hgood (k, vs) (List.mem_cons_self _ _)
        · exact ihgood kv' hmem

theorem goodScan_foldl (files : List String)
    (acc : List (String × List String)) (hacc : goodScan acc) :
    goodScan (files.foldl scanStep acc) := by
  induction files generalizing acc with
  | nil => exact hacc
  | cons n rest ih =>
    rw [List.foldl_cons]
    apply ih
    unfold scanStep
    split
    · exact hacc
    · split
      · exact hacc
      · rename_i base suffix heq
        obtain ⟨hb, hsfx⟩ := usSearch_spec heq
        apply goodScan_insertVariant hacc hb
        rcases hsfx with h | ⟨c, hc, h⟩
        · subst h
          exact Or.inl (by simp)
        · subst h
          exact Or.inr ⟨c, hc, rfl⟩

theorem goodScan_get_all (dir : StoriesDir) :
    goodScan (get_all_story_ids dir) := by
  cases dir with
  | none => exact ⟨List.nodup_nil, by simp [get_all_story_ids]⟩
  | some files => exact goodScan_foldl files [] ⟨List.nodup_nil, by simp⟩

theorem lookupA_of_mem {m : List (String × List String)}
    {kv : String × List String} (hnd : (keysOf m).Nodup) (hmem : kv ∈ m) :
    lookupA kv.1 m = some kv.2 := by
  induction m with
  | nil => cases hmem
  | cons kv' rest ih =>
    obtain ⟨k, vs⟩ := kv'
    rw [show keysOf ((k, vs) :: rest) = k :: keysOf rest from rfl,
      List.nodup_cons] at hnd
    rcases List.mem_cons.mp hmem with heq | hmem'
    · subst heq
      simp [lookupA]
    · have hne : k ≠ kv.1 := by
        intro h
        exact hnd.1 (h ▸ List.mem_map_of_mem Prod.fst hmem')
      rw [show lookupA kv.1 ((k, vs) :: rest) =
        if k = kv.1 then some vs else lookupA kv.1 rest from rfl, if_neg hne]
      exact ih hnd.2 hmem'

theorem exists_entry_of_mem_allVariants
    {m : List (String × List String)} {v : String}
    (h : v ∈ allVariants m) : ∃ kv ∈ m, v ∈ kv.2 := by
  simp only [allVariants, List.mem_flatten, List.mem_map] at h
  obtain ⟨l, ⟨kv, hkv, hl⟩, hv⟩ := h
  exact ⟨kv, hkv, hl ▸ hv⟩

theorem validate_dup_false {dir : StoriesDir} {bsid sfx : String}
    (hb : storyIdFormatOk bsid = true)
    (hs : sfx = "" ∨ suffixFormatOk sfx = true)
    (hmem : (bsid ++ sfx) ∈ allVariants (get_all_story_ids dir)) :
    (validate_story_id_unique dir (bsid ++ sfx)).1 = false := by
  obtain ⟨d1, d2, d3, hdata, hd1, hd2, hd3⟩ := storyIdFormatOk_shape hb
  obtain ⟨kv, hkv_mem, hv_mem⟩ := exists_entry_of_mem_allVariants hmem
  have hgood := goodScan_get_all dir
  have hge := hgood.2 kv hkv_mem
  obtain ⟨⟨e1, e2, e3, hkv1, he1, he2, he3⟩, hvars⟩ := hge
  have hgv := hvars (bsid ++ sfx) hv_mem
  -- the suffix part of the requested id is empty or one character
  have hsdata : sfx.data = [] ∨ ∃ c, isUp c = true ∧ sfx.data = [c] := by
    rcases hs with h | h
    · exact Or.inl (by simp [h])
    · obtain ⟨c, hcd, hcu⟩ := suffixFormatOk_shape h
      exact Or.inr ⟨c, hcu, hcd⟩
  -- the base key of the entry holding the requested id is its own digits
  have hkvdata : kv.1.data = [e1, e2, e3] := by rw [hkv1]
  have hbase : kv.1 = String.mk [d1, d2, d3] := by
    rcases hgv with hvv | ⟨c', hc', hvv⟩
    · have hdd := congrArg String.data hvv
      rw [data_append, hdata, data_append, hkvdata,
        show "US-".data = ['U', 'S', '-'] from rfl] at hdd
      rcases hsdata with hse | ⟨c, hcu, hse⟩
      · rw [hse] at hdd
        simp at hdd
        obtain ⟨h1, h2, h3⟩ := hdd
        rw [hkv1, h1, h2, h3]
      · rw [hse] at hdd
        simp at hdd
    · have hdd := congrArg String.data hvv
      rw [data_append, hdata, data_append, data_append, hkvdata,
        show "US-".data = ['U', 'S', '-'] from rfl,
        show (String.mk [c']).data = [c'] from rfl] at hdd
      rcases hsdata with hse | ⟨c, hcu, hse⟩
      · rw [hse] at hdd
        simp at hdd
      · rw [hse] at hdd
        simp at hdd
        obtain ⟨h1, h2, h3, -⟩ := hdd
        rw [hkv1, h1, h2, h3]
  -- evaluate the anchored pattern match on the requested id
  have humatch : ∃ s2, usMatchAt ((bsid ++ sfx).data) =
      some (String.mk [d1, d2, d3], s2) := by
    rw [data_append, hdata]
    rcases hsdata with hse | ⟨c, hcu, hse⟩ <;> rw [hse]
    · exact ⟨"", by simp [usMatchAt, hd1, hd2, hd3]⟩
    · exact ⟨String.mk [c], by simp [usMatchAt, hd1, hd2, hd3, hcu]⟩
  obtain ⟨s2, humatch⟩ := humatch
  have hlook : lookupA (String.mk [d1, d2, d3]) (get_all_story_ids dir) =
      some kv.2 := hbase ▸ lookupA_of_mem hgood.1 hkv_mem
  have hmemb : memb (bsid ++ sfx) kv.2 = true := (memb_iff _ _).mpr hv_mem
  simp only [validate_story_id_unique, humatch, hlook, hmemb, if_pos]

/-- C1: requesting a full story id (well-formed base plus optional
single-letter suffix) that already occurs among the ids embedded in the
existing story file names makes `create_story` fail, so it creates no new
document with a duplicate id. -/
theorem story_create_rejects_duplicate_id
    (files : List String) (domain title story_type priority : String)
    (bsid : String) (osfx : Option String) (tmpl date : String)
    (hb : storyIdFormatOk bsid = true)
    (hs : ∀ s, osfx = some s → suffixFormatOk s = true)
    (hmem : (bsid ++ osfx.getD "") ∈ allVariants (get_all_story_ids (some files))) :
    (create_story (some files) domain title story_type priority
      (some bsid) osfx tmpl date).isOk = false := by
  have hne : bsid ≠ "" := by
    intro h
    obtain ⟨d1, d2, d3, hdata, -, -, -⟩ := storyIdFormatOk_shape hb
    rw [h] at hdata
    exact absurd hdata (by simp)
  have htr : pyTruthy (some bsid) = true := by
    simp [pyTruthy, hne]
  have hs' : osfx.getD "" = "" ∨ suffixFormatOk (osfx.getD "") = true := by
    cases osfx with
    | none => exact Or.inl rfl
    | some s => exact Or.inr (hs s rfl)
  have hval := validate_dup_false hb hs' hmem
  simp only [create_story, Option.getD_some]
  split
  · rfl
  cases osfx with
  | none =>
    have hval' : (validate_story_id_unique (some files) bsid).1 = false := by
      have hb0 : bsid ++ (none : Option String).getD "" = bsid := by
        apply String.ext
        simp [data_append]
      rw [hb0] at hval
      exact hval
    simp [pyTruthy, hne, hb, hval', Except.isOk, Except.toBool]
  | some s =>
    have hsfok := hs s rfl
    have hsne : s ≠ "" := by
      intro h
      rw [h] at hsfok
      exact absurd hsfok (by decide)
    simp only [Option.getD_some] at hval
    simp [pyTruthy, hne, hb, hsne, hsfok, hval, Except.isOk, Except.toBool]

/-- Witness for the C1 theorem: requesting `US-001` when a file embedding
`US-001` already exists is rejected. -/
theorem story_create_rejects_duplicate_id_witness :
    (create_story (some ["TEMPLATE.md", "US-001-auth-login.md"]) "auth"
      "Login" "feature" "high" (some "US-001") none "tc" "d").isOk = false :=
  story_create_rejects_duplicate_id
    ["TEMPLATE.md", "US-001-auth-login.md"] "auth" "Login" "feature" "high"
    "US-001" none "tc" "d" (by decide) (by intro s h; cases h) (by decide)

/-! ## Theorems about slugify (C10) -/

/-- No two consecutive hyphens occur in the list. -/
def noDouble : List Char → Bool
  | [] => true
  | [_] => true
  | a :: b :: rest => !(a == '-' && b == '-') && noDouble (b :: rest)

theorem noDouble_tail {a : Char} {l : List Char}
    (h : noDouble (a :: l) = true) : noDouble l = true := by
  cases l with
  | nil => rfl
  | cons b r =>
    rw [show noDouble (a :: b :: r) =
      (!(a == '-' && b == '-') && noDouble (b :: r)) from rfl,
      Bool.and_eq_true] at h
    exact h.2

theorem noDouble_cons {a : Char} {l : List Char} (hl : noDouble l = true)
    (h : a ≠ '-' ∨ ∀ x r, l = x :: r → x ≠ '-') :
    noDouble (a :: l) = true := by
  cases l with
  | nil => rfl
  | cons b r =>
    rw [show noDouble (a :: b :: r) =
      (!(a == '-' && b == '-') && noDouble (b :: r)) from rfl,
      Bool.and_eq_true]
    refine ⟨?_, hl⟩
    rcases h with h | h
    · simp [h]
    · simp [h b r rfl]

theorem noDouble_iff_chain (l : List Char) :
    noDouble l = true ↔ l.Chain' (fun a b => ¬(a = '-' ∧ b = '-')) := by
  induction l with
  | nil => simp [noDouble]
  | cons a tl ih =>
    cases tl with
    | nil => simp [noDouble]
    | cons b r =>
      rw [show noDouble (a :: b :: r) =
        (!(a == '-' && b == '-') && noDouble (b :: r)) from rfl,
        Bool.and_eq_true, ih, List.chain'_cons]
      constructor
      · rintro ⟨h1, h2⟩
        refine ⟨?_, h2⟩
        rintro ⟨ha, hb⟩
        subst ha
        subst hb
        simp at h1
      · rintro ⟨h1, h2⟩
        refine ⟨?_, h2⟩
        by_cases ha : a = '-'
        · by_cases hb : b = '-'
          · exact absurd ⟨ha, hb⟩ h1
          · simp [hb]
        · simp [ha]

theorem noDouble_reverse {l : List Char} (h : noDouble l = true) :
    noDouble l.reverse = true := by
  rw [noDouble_iff_chain] at h ⊢
  rw [List.chain'_reverse]
  exact h.imp (fun a b hab ⟨h1, h2⟩ => hab ⟨h2, h1⟩)

theorem noDouble_dropWhile {l : List Char} (p : Char → Bool)
    (h : noDouble l = true) : noDouble (l.dropWhile p) = true := by
  induction l with
  | nil => exact h
  | cons c tl ih =>
    rw [List.dropWhile_cons]
    by_cases hp : p c = true
    · simp only [hp, if_true]
      exact ih (noDouble_tail h)
    · simp only [hp, if_false]
      exact h

theorem dropWhile_head_not {p : Char → Bool} :
    ∀ (l : List Char) {x : Char} {r : List Char},
      l.dropWhile p = x :: r → p x = false := by
  intro l
  induction l with
  | nil => intro x r h; cases h
  | cons c tl ih =>
    intro x r h
    rw [List.dropWhile_cons] at h
    by_cases hp : p c = true
    · rw [if_pos hp] at h
      exact ih h
    · rw [if_neg hp] at h
      cases h
      exact Bool.not_eq_true _ ▸ (Bool.eq_false_iff.mpr hp)

theorem dropWhile_makes_suffix (p : Char → Bool) (l : List Char) :
    ∃ pre, pre ++ l.dropWhile p = l := by
  induction l with
  | nil => exact ⟨[], rfl⟩
  | cons c tl ih =>
    rw [List.dropWhile_cons]
    by_cases hp : p c = true
    · obtain ⟨pre, hpre⟩ := ih
      exact ⟨c :: pre, by simp [hp, hpre]⟩
    · exact ⟨[], by simp [hp]⟩

theorem mem_collapseHyphGo {c : Char} :
    ∀ {b : Bool} {l : List Char}, c ∈ collapseHyphGo b l → c ∈ l ∨ c = '-' := by
  intro b l
  induction l generalizing b with
  | nil => intro h; cases h
  | cons a tl ih =>
    intro h
    rw [collapseHyphGo] at h
    by_cases ha : a = '-'
    · rw [if_pos ha] at h
      by_cases hb : b = true
      · rw [if_pos hb] at h
        rcases ih h with h' | h'
        · exact Or.inl (List.mem_cons_of_mem _ h')
        · exact Or.inr h'
      · rw [if_neg hb] at h
        rcases List.mem_cons.mp h with h' | h'
        · exact Or.inr h'
        · rcases ih h' with h'' | h''
          · exact Or.inl (List.mem_cons_of_mem _ h'')
          · exact Or.inr h''
    · rw [if_neg ha] at h
      rcases List.mem_cons.mp h with h' | h'
      · exact Or.inl (h' ▸ List.mem_cons_self _ _)
      · rcases ih h' with h'' | h''
        · exact Or.inl (List.mem_cons_of_mem _ h'')
        · exact Or.inr h''

theorem mem_stripHyph {c : Char} {l : List Char} (h : c ∈ stripHyph l) :
    c ∈ l := by
  unfold stripHyph at h
  rw [List.mem_reverse] at h
  obtain ⟨pre2, hpre2⟩ := dropWhile_makes_suffix (· = '-') (l.dropWhile (· = '-')).reverse
  have h2 : c ∈ (l.dropWhile (· = '-')).reverse := by
    rw [← hpre2]
    exact List.mem_append_right _ h
  rw [List.mem_reverse] at h2
  obtain ⟨pre1, hpre1⟩ := dropWhile_makes_suffix (· = '-') l
  rw [← hpre1]
  exact List.mem_append_right _ h2

theorem collapse_spec : ∀ l : List Char,
    noDouble (collapseHyphGo false l) = true ∧
    noDouble (collapseHyphGo true l) = true ∧
    (∀ x r, collapseHyphGo true l = x :: r → x ≠ '-') := by
  intro l
  induction l with
  | nil => exact ⟨rfl, rfl, fun x r h => by cases h⟩
  | cons c tl ih =>
    obtain ⟨ihf, iht, ihh⟩ := ih
    by_cases hc : c = '-'
    · subst hc
      have hf : collapseHyphGo false ('-' :: tl) =
          '-' :: collapseHyphGo true tl := by simp [collapseHyphGo]
      have ht : collapseHyphGo true ('-' :: tl) = collapseHyphGo true tl := by
        simp [collapseHyphGo]
      refine ⟨?_, ?_, ?_⟩
      · rw [hf]
        exact noDouble_cons iht (Or.inr ihh)
      · rw [ht]
        exact iht
      · intro x r h
        rw [ht] at h
        exact ihh x r h
    · have hf : collapseHyphGo false (c :: tl) =
          c :: collapseHyphGo false tl := by simp [collapseHyphGo, hc]
      have ht : collapseHyphGo true (c :: tl) =
          c :: collapseHyphGo false tl := by simp [collapseHyphGo, hc]
      refine ⟨?_, ?_, ?_⟩
      · rw [hf]
        exact noDouble_cons ihf (Or.inl hc)
      · rw [ht]
        exact noDouble_cons ihf (Or.inl hc)
      · intro x r h
        rw [ht] at h
        injection h with h1 h2
        rw [← h1]
        exact hc

theorem stripHyph_head (l : List Char) : (stripHyph l).head? ≠ some '-' := by
  unfold stripHyph
  rw [List.head?_reverse]
  cases hDe : (l.dropWhile (· = '-')).reverse.dropWhile (· = '-') with
  | nil => simp
  | cons x r =>
    obtain ⟨pre, hpre⟩ :=
      dropWhile_makes_suffix (· = '-') (l.dropWhile (· = '-')).reverse
    rw [hDe] at hpre
    have h1 : (x :: r).getLast? =
        (l.dropWhile (· = '-')).reverse.getLast? := by
      rw [← hpre]
      exact (List.getLast?_append_of_ne_nil pre (List.cons_ne_nil _ _)).symm
    rw [h1, List.getLast?_reverse]
    cases hAe : l.dropWhile (· = '-') with
    | nil =>
      rw [hAe] at hpre
      simp at hpre
    | cons y t =>
      have hy := dropWhile_head_not l hAe
      simp only [List.head?_cons, ne_eq, Option.some.injEq]
      intro hcon
      rw [hcon] at hy
      simp at hy

theorem stripHyph_last (l : List Char) : (stripHyph l).getLast? ≠ some '-' := by
  unfold stripHyph
  rw [List.getLast?_reverse]
  cases hDe : (l.dropWhile (· = '-')).reverse.dropWhile (· = '-') with
  | nil => simp
  | cons x r =>
    have hx := dropWhile_head_not (l.dropWhile (· = '-')).reverse hDe
    simp only [List.head?_cons, ne_eq, Option.some.injEq]
    intro hcon
    rw [hcon] at hx
    simp at hx

theorem noDouble_stripHyph {l : List Char} (h : noDouble l = true) :
    noDouble (stripHyph l) = true := by
  unfold stripHyph
  exact noDouble_reverse (noDouble_dropWhile _ (noDouble_reverse
    (noDouble_dropWhile _ h)))

theorem isUp_of_slug_false {c : Char} (h : isSlugChar c = true) :
    isUp c = false := by
  rw [Bool.eq_false_iff]
  intro hup
  simp only [isUp, Bool.and_eq_true, decide_eq_true_eq] at hup
  simp only [isSlugChar, Bool.or_eq_true] at h
  rcases h with (h | h) | h
  · simp only [isLo, Bool.and_eq_true, decide_eq_true_eq] at h
    omega
  · simp only [isDig, Bool.and_eq_true, decide_eq_true_eq] at h
    omega
  · rw [decide_eq_true_eq] at h
    subst h
    exact absurd hup (by decide)

theorem notWs_of_slug {c : Char} (h : isSlugChar c = true) :
    (pyIsSpace c || c = '_') = false := by
  rw [Bool.eq_false_iff]
  intro hws
  simp only [pyIsSpace, Bool.or_eq_true, decide_eq_true_eq] at hws
  simp only [isSlugChar, Bool.or_eq_true] at h
  rcases h with (h | h) | h
  · simp only [isLo, Bool.and_eq_true, decide_eq_true_eq] at h
    rcases hws with (((((hc | hc) | hc) | hc) | hc) | hc) | hc <;>
      (subst hc; revert h; decide)
  · simp only [isDig, Bool.and_eq_true, decide_eq_true_eq] at h
    rcases hws with (((((hc | hc) | hc) | hc) | hc) | hc) | hc <;>
      (subst hc; revert h; decide)
  · rw [decide_eq_true_eq] at h
    subst h
    rcases hws with (((((hc | hc) | hc) | hc) | hc) | hc) | hc <;>
      exact absurd hc (by decide)

theorem map_toLowerAscii_id {l : List Char}
    (h : ∀ c ∈ l, isSlugChar c = true) : l.map toLowerAscii = l := by
  induction l with
  | nil => rfl
  | cons c tl ih =>
    rw [List.map_cons, ih (fun c' hc' => h c' (List.mem_cons_of_mem _ hc'))]
    have hup := isUp_of_slug_false (h c (List.mem_cons_self _ _))
    rw [show toLowerAscii c = c from by simp [toLowerAscii, hup]]

theorem replWsGo_id {l : List Char}
    (h : ∀ c ∈ l, (pyIsSpace c || c = '_') = false) :
    ∀ b, replWsGo b l = l := by
  induction l with
  | nil => intro b; rfl
  | cons c tl ih =>
    intro b
    rw [replWsGo]
    rw [if_neg (by simp [h c (List.mem_cons_self _ _)])]
    rw [ih (fun c' hc' => h c' (List.mem_cons_of_mem _ hc'))]

theorem collapse_id : ∀ l : List Char, noDouble l = true →
    collapseHyphGo false l = l ∧
    ((∀ x r, l = x :: r → x ≠ '-') → collapseHyphGo true l = l) := by
  intro l
  induction l with
  | nil => exact fun _ => ⟨rfl, fun _ => rfl⟩
  | cons c tl ih =>
    intro hnd
    have htl := noDouble_tail hnd
    obtain ⟨ihf, iht⟩ := ih htl
    by_cases hc : c = '-'
    · subst hc
      have hhead : ∀ x r, tl = x :: r → x ≠ '-' := by
        intro x r hxr
        rw [hxr] at hnd
        rw [show noDouble ('-' :: x :: r) =
          (!('-' == '-' && x == '-') && noDouble (x :: r)) from rfl,
          Bool.and_eq_true] at hnd
        intro hx
        rw [hx] at hnd
        simp at hnd
      constructor
      · rw [show collapseHyphGo false ('-' :: tl) =
          '-' :: collapseHyphGo true tl from by simp [collapseHyphGo]]
        rw [iht hhead]
      · intro hcond
        exact absurd rfl (hcond '-' tl rfl)
    · constructor
      · rw [show collapseHyphGo false (c :: tl) =
          c :: collapseHyphGo false tl from by simp [collapseHyphGo, hc]]
        rw [ihf]
      · intro _
        rw [show collapseHyphGo true (c :: tl) =
          c :: collapseHyphGo false tl from by simp [collapseHyphGo, hc]]
        rw [ihf]

theorem dropWhile_id_of_head {p : Char → Bool} {l : List Char}
    (h : ∀ x r, l = x :: r → p x = false) : l.dropWhile p = l := by
  cases l with
  | nil => rfl
  | cons c tl =>
    rw [List.dropWhile_cons, if_neg (by simp [h c tl rfl])]

theorem stripHyph_id {l : List Char}
    (hh : l.head? ≠ some '-') (hl : l.getLast? ≠ some '-') :
    stripHyph l = l := by
  have h1 : l.dropWhile (· = '-') = l := by
    apply dropWhile_id_of_head
    intro x r hxr
    rw [hxr, List.head?_cons] at hh
    simp only [ne_eq, Option.some.injEq] at hh
    simp [hh]
  have h2 : l.reverse.dropWhile (· = '-') = l.reverse := by
    apply dropWhile_id_of_head
    intro x r hxr
    have hx : l.getLast? = some x := by
      rw [← List.head?_reverse, hxr, List.head?_cons]
    rw [hx] at hl
    simp only [ne_eq, Option.some.injEq] at hl
    simp [hl]
  unfold stripHyph
  rw [h1, h2, List.reverse_reverse]

/-- C10: `slugify` output contains only lowercase letters, digits and
hyphens, never starts or ends with a hyphen, never contains two adjacent
hyphens, and `slugify` is idempotent. -/
theorem slugify_canonical (s : String) :
    (∀ c ∈ (slugify s).data, isSlugChar c = true) ∧
    noDouble (slugify s).data = true ∧
    (slugify s).data.head? ≠ some '-' ∧
    (slugify s).data.getLast? ≠ some '-' ∧
    slugify (slugify s) = slugify s := by
  have hdata : ∀ t : String, (slugify t).data =
      stripHyph (collapseHyphGo false
        ((replWsGo false (t.data.map toLowerAscii)).filter isSlugChar)) :=
    fun t => rfl
  have hall : ∀ c ∈ (slugify s).data, isSlugChar c = true := by
    intro c hc
    rw [hdata] at hc
    have hc2 := mem_stripHyph hc
    rcases mem_collapseHyphGo hc2 with h | h
    · exact List.of_mem_filter h
    · rw [h]; decide
  have hnd : noDouble (slugify s).data = true := by
    rw [hdata]
    exact noDouble_stripHyph (collapse_spec _).1
  have hhd : (slugify s).data.head? ≠ some '-' := by
    rw [hdata]; exact stripHyph_head _
  have hlt : (slugify s).data.getLast? ≠ some '-' := by
    rw [hdata]; exact stripHyph_last _
  refine ⟨hall, hnd, hhd, hlt, ?_⟩
  apply String.ext
  rw [hdata (slugify s)]
  rw [map_toLowerAscii_id hall]
  rw [replWsGo_id (fun c hc => notWs_of_slug (hall c hc)) false]
  rw [List.filter_eq_self.mpr hall]
  rw [(collapse_id _ hnd).1]
  exact stripHyph_id hhd hlt

/-- Witness for the C10 theorem at a concrete input. -/
theorem slugify_canonical_witness :
    noDouble (slugify "Log  In_Flow!").data = true ∧
    slugify (slugify "Log  In_Flow!") = slugify "Log  In_Flow!" :=
  ⟨(slugify_canonical "Log  In_Flow!").2.1,
   (slugify_canonical "Log  In_Flow!").2.2.2.2⟩

/-! ## validate_sdlc.py (C7, C9) -/

/-- Does `TASK-` (case-insensitively) followed by one ASCII digit start
here?  One position of the search for `re.search(r"TASK-\d+", msg,
re.IGNORECASE)`; an occurrence of `TASK-` followed by at least one digit
exists iff this 6-character prefix exists at some position. -/
def taskRefAt : List Char → Bool
  | t :: a :: s :: k :: dash :: d :: _ =>
    toLowerAscii t == 't' && toLowerAscii a == 'a' && toLowerAscii s == 's' &&
    toLowerAscii k == 'k' && dash == '-' && isDig d
  | _ => false

/-- Leftmost-search over all positions. -/
def searchTaskRef : List Char → Bool
  | [] => false
  | c :: rest => taskRefAt (c :: rest) || searchTaskRef rest

/-- Model of `has_task_reference`:
`re.search(r"TASK-\d+", commit_msg, re.IGNORECASE)` as a boolean. -/
def has_task_reference (commit_msg : String) : Bool :=
  searchTaskRef commit_msg.data

/-- The claim's token shape: literal `TASK-` followed by exactly three
digits (the task-id pattern `TASK-###`), starting here. -/
def task3At : List Char → Bool
  | t :: a :: s :: k :: dash :: d1 :: d2 :: d3 :: _ =>
    t == 'T' && a == 'A' && s == 'S' && k == 'K' && dash == '-' &&
    isDig d1 && isDig d2 && isDig d3
  | _ => false

/-- Search for the claim's `TASK-###` token anywhere in the message. -/
def containsTask3 : List Char → Bool
  | [] => false
  | c :: rest => task3At (c :: rest) || containsTask3 rest

/-- The claim's predicate: the message contains a token matching
`TASK-###` (three digits), optionally followed by a free-form suffix. -/
def claimTaskToken (msg : String) : Bool := containsTask3 msg.data

/-- ASCII lowering of a whole string, model of `str.lower()`. -/
def lowerStr (s : String) : String := String.mk (s.data.map toLowerAscii)

/-- Model of `has_subagent_marker`: `"Subagent:" in commit_msg or
"subagent:" in commit_msg.lower()`. -/
def has_subagent_marker (commit_msg : String) : Bool :=
  containsSub commit_msg "Subagent:" ||
  containsSub (lowerStr commit_msg) "subagent:"

/-- Paths the coordinator may modify. -/
def COORDINATOR_ALLOWED : List String :=
  [".claude/", ".sdlc-workflow/", "CLAUDE.md", "README.md", ".gitignore",
   ".env.example"]

/-- Paths that require a subagent (implementation code). -/
def IMPLEMENTATION_PATHS : List String :=
  ["apps/server/src/", "apps/frontend/src/", "tests/"]

/-- Configuration paths (warned about, never blocking). -/
def CONFIG_PATHS : List String :=
  ["apps/server/pyproject.toml", "apps/frontend/package.json",
   "docker-compose.yml", "Makefile"]

/-- Model of `is_coordinator_file`: any allowed prefix matches. -/
def is_coordinator_file (filepath : String) : Bool :=
  COORDINATOR_ALLOWED.any (fun p => startsWithL p.data filepath.data)

/-- Model of `is_implementation_file`: any implementation prefix
matches. -/
def is_implementation_file (filepath : String) : Bool :=
  IMPLEMENTATION_PATHS.any (fun p => startsWithL p.data filepath.data)

/-- Model of `is_config_file`: exact equality with a config path. -/
def is_config_file (filepath : String) : Bool :=
  CONFIG_PATHS.any (fun p => filepath == p)

/-- Model of `validate_commit` with the git query results (staged file
list and commit message) as explicit inputs, covering the claim's
assumption that the underlying git commands succeed.  The classification
loop only feeds the error logic through `implementation_files`;
coordinator/config classification produces warnings on stdout, not
errors. -/
def validate_commit (staged : List String) (commit_msg : String) :
    Bool × List String :=
  if staged.isEmpty then (true, [])
  else
    let implementation_files := staged.filter is_implementation_file
    let errors :=
      (if !implementation_files.isEmpty && !has_task_reference commit_msg then
        ["❌ Implementation changes require task reference (TASK-XXX)\n   Files: " ++
          String.intercalate ", " (implementation_files.take 3) ++
          (if implementation_files.length > 3 then "..." else "")]
      else []) ++
      (if !implementation_files.isEmpty && !has_subagent_marker commit_msg then
        ["❌ Implementation changes must be done by subagent\n   Add to commit message: 'Subagent: <subagent-name>'\n   Valid subagents: dev-backend-fastapi, dev-frontend-svelte, playwright-e2e-tester"]
      else [])
    (errors.isEmpty, errors)

/-! ## Theorems about task references (C7) -/

/-- C7 counterexample: the message `TASK-1` contains no `TASK-###`
three-digit token, yet `has_task_reference` returns true, because the code
matches `TASK-\d+` (one or more digits, case-insensitive). -/
theorem task_reference_counterexample :
    has_task_reference "TASK-1" = true ∧ claimTaskToken "TASK-1" = false := by
  decide

theorem searchTaskRef_iff (cs : List Char) :
    searchTaskRef cs = true ↔
    ∃ l t a s k d r, cs = l ++ [t, a, s, k, '-', d] ++ r ∧
      toLowerAscii t = 't' ∧ toLowerAscii a = 'a' ∧ toLowerAscii s = 's' ∧
      toLowerAscii k = 'k' ∧ isDig d = true := by
  induction cs with
  | nil =>
    constructor
    · intro h
      cases h
    · rintro ⟨l, t, a, s, k, d, r, heq, -⟩
      exact absurd heq (by simp)
  | cons c rest ih =>
    rw [show searchTaskRef (c :: rest) =
      (taskRefAt (c :: rest) || searchTaskRef rest) from rfl,
      Bool.or_eq_true, ih]
    constructor
    · rintro (h | ⟨l, t, a, s, k, d, r, heq, h2⟩)
      · unfold taskRefAt at h
        split at h
        · rename_i t a s k dash d tail heq
          simp only [Bool.and_eq_true, beq_iff_eq] at h
          obtain ⟨⟨⟨⟨⟨ht, ha⟩, hs⟩, hk⟩, hdash⟩, hd⟩ := h
          subst hdash
          exact ⟨[], t, a, s, k, d, tail, by rw [heq]; rfl, ht, ha, hs, hk, hd⟩
        · exact absurd h (by simp)
      · exact ⟨c :: l, t, a, s, k, d, r, by rw [heq]; rfl, h2⟩
    · rintro ⟨l, t, a, s, k, d, r, heq, ht, ha, hs, hk, hd⟩
      cases l with
      | nil =>
        left
        simp only [List.nil_append] at heq
        rw [heq]
        unfold taskRefAt
        simp [ht, ha, hs, hk, hd]
      | cons x l' =>
        right
        rw [List.cons_append] at heq
        injection heq with h1 h2
        exact ⟨l', t, a, s, k, d, r, h2, ht, ha, hs, hk, hd⟩

/-- C7 amended: `has_task_reference` returns true exactly when the message
contains, ignoring letter case, the characters `TASK-` followed
immediately by at least one decimal digit (one digit suffices, and a
free-form suffix may follow). -/
theorem task_reference_characterization (msg : String) :
    has_task_reference msg = true ↔
    ∃ l t a s k d r, msg.data = l ++ [t, a, s, k, '-', d] ++ r ∧
      toLowerAscii t = 't' ∧ toLowerAscii a = 'a' ∧ toLowerAscii s = 's' ∧
      toLowerAscii k = 'k' ∧ isDig d = true :=
  searchTaskRef_iff msg.data

/-- Witness for the C7 amended theorem: a lowercase single-digit reference
is recognized. -/
theorem task_reference_characterization_witness :
    has_task_reference "fix: task-7 cleanup" = true :=
  (task_reference_characterization "fix: task-7 cleanup").mpr
    ⟨['f', 'i', 'x', ':', ' '], 't', 'a', 's', 'k', '7', [' ', 'c', 'l',
      'e', 'a', 'n', 'u', 'p'], by decide, by decide, by decide, by decide,
      by decide, by decide⟩

/-! ## Theorems about commit validation (C9) -/

/-- C9: with the git queries modelled as inputs, a commit with no staged
implementation file always validates with no errors; with at least one
staged implementation path, validity holds exactly when the message has
both a task reference and a subagent marker, with one error per missing
element. -/
theorem commit_validation_decision (staged : List String)
    (commit_msg : String) :
    ((∀ f ∈ staged, is_implementation_file f = false) →
      validate_commit staged commit_msg = (true, [])) ∧
    ((∃ f ∈ staged, is_implementation_file f = true) →
      (((validate_commit staged commit_msg).1 = true) ↔
        (has_task_reference commit_msg = true ∧
         has_subagent_marker commit_msg = true)) ∧
      (validate_commit staged commit_msg).2.length =
        ((if has_task_reference commit_msg = true then 0 else 1) +
         (if has_subagent_marker commit_msg = true then 0 else 1))) := by
  constructor
  · intro h
    unfold validate_commit
    cases staged with
    | nil => rfl
    | cons f rest =>
      have hfilter : (f :: rest).filter is_implementation_file = [] := by
        rw [List.filter_eq_nil_iff]
        intro a ha
        simp [h a ha]
      simp [hfilter]
  · rintro ⟨f, hf, hfi⟩
    have hne : staged.isEmpty = false := by
      cases staged with
      | nil => cases hf
      | cons x r => rfl
    have hfe : (staged.filter is_implementation_file).isEmpty = false := by
      have : f ∈ staged.filter is_implementation_file :=
        List.mem_filter.mpr ⟨hf, hfi⟩
      cases hmatch : staged.filter is_implementation_file with
      | nil => rw [hmatch] at this; cases this
      | cons x r => rfl
    unfold validate_commit
    rw [hne]
    simp only [Bool.false_eq_true, if_false, hfe, Bool.not_false,
      Bool.true_and]
    by_cases h1 : has_task_reference commit_msg = true
    · by_cases h2 : has_subagent_marker commit_msg = true
      · simp [h1, h2]
      · simp [h1, h2]
    · by_cases h2 : has_subagent_marker commit_msg = true
      · simp [h1, h2]
      · simp [h1, h2]

/-- Witness for the C9 theorem: a staged implementation file with a fully
annotated message validates; the same file with a bare message yields two
errors. -/
theorem commit_validation_decision_witness :
    (validate_commit ["apps/server/src/app.py"]
      "feat: x TASK-001\nSubagent: dev-backend-fastapi").1 = true ∧
    (validate_commit ["apps/server/src/app.py"] "feat: x").2.length = 2 := by
  constructor
  · exact ((commit_validation_decision ["apps/server/src/app.py"]
      "feat: x TASK-001\nSubagent: dev-backend-fastapi").2
      ⟨"apps/server/src/app.py", by decide, by decide⟩).1.mpr
      ⟨by decide, by decide⟩
  · have h := (commit_validation_decision ["apps/server/src/app.py"]
      "feat: x").2 ⟨"apps/server/src/app.py", by decide, by decide⟩
    rw [h.2]
    decide

/-! ## generate_3d_model.py (C3) -/

/-- Explicit file-system state: existing directories and an association
of file path to content. -/
structure FSt where
  dirs : List String
  files : List (String × String)
  deriving Repr, DecidableEq

/-- Model of `Path(output_path).parent.mkdir(parents=True, exist_ok=True)`
applied to the parent directory of the target. -/
def mkdirParents (fs : FSt) (d : String) : FSt :=
  if memb d fs.dirs then fs else { fs with dirs := fs.dirs ++ [d] }

/-- Replace or append a file entry. -/
def setFile : List (String × String) → String → String →
    List (String × String)
  | [], p, content => [(p, content)]
  | (q, c) :: rest, p, content =>
    if q = p then (q, content) :: rest else (q, c) :: setFile rest p content

/-- The content found at the target after a write that fails after `k`
bytes (`some k`) or succeeds (`none`). -/
def writtenContent (content : String) : Option Nat → String
  | none => content
  | some k => String.mk (content.data.take k)

/-- Model of `Path(...).write_bytes` / `Path(...).write_text`: the final
target is opened for writing (truncating it) and the bytes are written in
order.  `failAt = none` is a successful write; `failAt = some k` is an
environment failure after `k` bytes, leaving the truncated prefix at the
target.  The call names the final path directly — no temporary file is
involved. -/
def writeFileAt (fs : FSt) (p content : String) (failAt : Option Nat) :
    FSt :=
  { fs with files := setFile fs.files p (writtenContent content failAt) }

/-- Model of `download_model`: ensure the parent directory exists
(`parents=True, exist_ok=True`), then write the downloaded bytes directly
to `output_path`. -/
def download_model (fs : FSt) (parentDir output_path content : String)
    (failAt : Option Nat) : FSt :=
  writeFileAt (mkdirParents fs parentDir) output_path content failAt

/-- Model of `save_metadata`: derive the metadata path by replacing
`.glb` with `.json` in the model path, then write the serialized metadata
directly to it. -/
def save_metadata (fs : FSt) (output_path metadataContent : String)
    (failAt : Option Nat) : FSt :=
  writeFileAt fs (pyReplace output_path ".glb" ".json") metadataContent failAt

/-- C3 counterexample: with a prior good snapshot at the target, a
download whose write fails at byte 0 leaves the target truncated — the
previously existing file is not unchanged, because the code writes
directly to the target instead of writing to a temporary location and
atomically replacing it. -/
theorem download_write_clobbers_counterexample :
    lookupA "models/bike.glb"
      (download_model ⟨["models"], [("models/bike.glb", "OLDGOOD")]⟩
        "models" "models/bike.glb" "NEWDATA" (some 0)).files ≠
    some "OLDGOOD" := by decide

theorem lookupA_setFile (fl : List (String × String)) (p c : String) :
    lookupA p (setFile fl p c) = some c := by
  induction fl with
  | nil => simp [setFile, lookupA]
  | cons qc rest ih =>
    obtain ⟨q, c0⟩ := qc
    by_cases h : q = p
    · subst h
      simp [setFile, lookupA]
    · simp only [setFile, if_neg h, lookupA, if_neg h]
      exact ih

/-- C3 amended: `download_model` first creates the missing parent
directory, then writes directly to the final target path: on success the
target holds exactly the downloaded bytes, and on a failure after `k`
bytes it holds the `k`-byte prefix (so a prior good file at the target is
overwritten, not preserved); `save_metadata` likewise writes the metadata
directly to the path obtained by replacing `.glb` with `.json`. -/
theorem download_model_direct_write (fs : FSt)
    (parentDir output_path content meta : String) (failAt : Option Nat) :
    parentDir ∈ (download_model fs parentDir output_path content
      failAt).dirs ∧
    lookupA output_path (download_model fs parentDir output_path content
      failAt).files = some (writtenContent content failAt) ∧
    lookupA (pyReplace output_path ".glb" ".json")
      (save_metadata fs output_path meta failAt).files =
      some (writtenContent meta failAt) := by
  refine ⟨?_, ?_, ?_⟩
  · unfold download_model writeFileAt mkdirParents
    by_cases h : memb parentDir fs.dirs = true
    · simp only [if_pos h]
      exact (memb_iff _ _).mp h
    · simp only [if_neg h]
      exact List.mem_append_right _ (List.mem_singleton.mpr rfl)
  · unfold download_model writeFileAt
    exact lookupA_setFile _ _ _
  · unfold save_metadata writeFileAt
    exact lookupA_setFile _ _ _

/-! ## validate_branch.py (C8) -/

/-- The valid branch types of the alternation. -/
def VALID_TYPES : List String :=
  ["feat", "fix", "refactor", "test", "docs", "chore"]

/-- The literal `/TASK-` that follows the branch type. -/
def slashTask : List Char := ['/', 'T', 'A', 'S', 'K', '-']

/-- Try each branch type of the alternation in order, stripping
`{type}/TASK-` from the front; deterministic because no two type prefixes
are compatible. -/
def tryTypes : List String → List Char → Option (List Char)
  | [], _ => none
  | ty :: tys, cs =>
    match dropStart (ty.data ++ slashTask) cs with
    | some r => some r
    | none => tryTypes tys cs

/-- Check of the optional `(-[a-z0-9-]+)?` semantic-name part preceding
`-US-`: empty, or a hyphen followed by a nonempty `[a-z0-9-]` run. -/
def midOk : List Char → Bool
  | [] => true
  | c :: seg => c == '-' && !seg.isEmpty && seg.all isSlugChar

/-- The reversed remainder after stripping the optional trailing
`[A-Z]?` letter. -/
def coreOf (r : List Char) : List Char :=
  match r.reverse with
  | c :: rest => if isUp c then rest else c :: rest
  | [] => []

/-- Match of `(-[a-z0-9-]+)?-US-\d+` against the reversed core: one or
more digits, then the reversed literal `-US-`, then the reversed optional
semantic-name part. -/
def coreMatch (core : List Char) : Bool :=
  !(core.takeWhile isDig).isEmpty &&
    (match dropStart ['-', 'S', 'U', '-'] (core.dropWhile isDig) with
     | some midr => midOk midr.reverse
     | none => false)

/-- Parse of the regex tail `(-[a-z0-9-]+)?-US-\d+[A-Z]?$` on the
remainder after `TASK-\d+`, working from the end of the string: strip one
optional uppercase letter, then one or more digits, then the literal
`-US-`; what is left must be the optional semantic-name part.  Parsing
from the end is unambiguous: `[A-Z]?` can only consume a trailing
uppercase letter, `\d+` must reach back to the literal `-US-`, and `US`
bounds the digit run. -/
def tailMatch (r : List Char) : Bool := coreMatch (coreOf r)

/-- Model of `BRANCH_PATTERN.match`: the anchored regex
`^(feat|fix|refactor|test|docs|chore)/TASK-\d+(-[a-z0-9-]+)?-US-\d+[A-Z]?$`.
After the type and `/TASK-`, the digit run of `TASK-\d+` is maximal, since
both possible continuations start with `-`. -/
def branchPatternMatch (cs : List Char) : Bool :=
  match tryTypes VALID_TYPES cs with
  | none => false
  | some r =>
    !(r.takeWhile isDig).isEmpty && tailMatch (r.dropWhile isDig)

/-- Model of `generate_error_message`: the old story-based naming message,
the missing-task-reference message, or the generic message.  Each is a
fixed prefix, the branch name, and a fixed suffix (the joined type list is
a constant). -/
def generate_error_message (branch : String) : String :=
  if startsWithL "feature/US-".data branch.data then
    "❌ Branch '" ++ branch ++
    "' uses old story-based naming.\n\nExpected pattern: \x7btype\x7d/TASK-\x7bnumber\x7d[-semantic-name]-US-\x7bstory\x7d\n\nValid examples:\n  feat/TASK-001-US-001\n  feat/TASK-001-clerk-mounting-US-001\n  fix/TASK-042-login-tests-US-001B\n  refactor/TASK-005-cleanup-US-001B\n\nValid types: feat, fix, refactor, test, docs, chore\nSemantic name: optional, 2-3 words, lowercase, hyphens only\n\nRationale: We use task-based branching (one branch per task, not per story)\nto enable parallel work and better git history traceability.\n"
  else if hasInfixL "/US-".data branch.data &&
      !hasInfixL "/TASK-".data branch.data then
    "❌ Branch '" ++ branch ++
    "' is missing task reference.\n\nExpected pattern: \x7btype\x7d/TASK-\x7bnumber\x7d[-semantic-name]-US-\x7bstory\x7d\n\nExamples:\n  feat/TASK-001-US-001\n  feat/TASK-001-clerk-mounting-US-001\n\nEach branch must reference both a task (TASK-XXX) and story (US-XXX).\nSemantic name is optional but recommended for self-documenting git history.\n"
  else
    "❌ Branch '" ++ branch ++
    "' doesn't follow SDLC naming convention.\n\nExpected pattern: \x7btype\x7d/TASK-\x7bnumber\x7d[-semantic-name]-US-\x7bstory\x7d\n\nValid examples:\n  feat/TASK-001-US-001\n  feat/TASK-001-clerk-mounting-US-001\n  fix/TASK-042-login-tests-US-001B\n  refactor/TASK-005-cleanup-US-001B\n  test/TASK-010-e2e-tests-US-002\n  docs/TASK-020-api-docs-US-005\n  chore/TASK-030-build-config-US-010\n\nValid types: feat, fix, refactor, test, docs, chore\nSemantic name: optional, 2-3 words, lowercase, hyphens only\nSpecial branches: main\n"

/-- Model of `validate_branch_name`: `main` is always valid, otherwise a
branch is valid exactly when the anchored pattern matches; invalid
branches get a generated error message. -/
def validate_branch_name (branch : String) : Bool × String :=
  if branch = "main" then (true, "")
  else if branchPatternMatch branch.data then (true, "")
  else (false, generate_error_message branch)

/-- The claim's branch grammar over the raw characters: an explicit
decomposition into type, task digits, optional lowercase segment, story
digits and optional trailing uppercase letter. -/
def BranchShapeL (cs : List Char) : Prop :=
  ∃ ty d1 mid d2 lt, ty ∈ VALID_TYPES ∧
    d1 ≠ [] ∧ d1.all isDig = true ∧
    (mid = [] ∨ ∃ seg, seg ≠ [] ∧ seg.all isSlugChar = true ∧
      mid = '-' :: seg) ∧
    d2 ≠ [] ∧ d2.all isDig = true ∧
    (lt = [] ∨ ∃ c, isUp c = true ∧ lt = [c]) ∧
    cs = ty.data ++ slashTask ++ d1 ++ mid ++
      ('-' :: 'U' :: 'S' :: '-' :: []) ++ d2 ++ lt

/-- The claim's branch grammar on strings. -/
def BranchShape (b : String) : Prop := BranchShapeL b.data

/-! ## Theorems about branch validation (C8) -/

theorem dropStart_append (pre r : List Char) :
    dropStart pre (pre ++ r) = some r := by
  induction pre with
  | nil => rfl
  | cons p ps ih => simp [dropStart, ih]

theorem tryTypes_some {tys : List String} {cs r : List Char}
    (h : tryTypes tys cs = some r) :
    ∃ ty ∈ tys, cs = ty.data ++ slashTask ++ r := by
  induction tys with
  | nil => cases h
  | cons ty tys ih =>
    rw [tryTypes] at h
    split at h
    · rename_i r' heq
      cases h
      exact ⟨ty, List.mem_cons_self _ _, dropStart_eq_some.mp heq⟩
    · obtain ⟨ty', hmem, hcs⟩ := ih h
      exact ⟨ty', List.mem_cons_of_mem _ hmem, hcs⟩

theorem tryTypes_isSome {tys : List String} {ty : String} {cs r : List Char}
    (hmem : ty ∈ tys) (hcs : cs = ty.data ++ slashTask ++ r) :
    (tryTypes tys cs).isSome = true := by
  induction tys with
  | nil => cases hmem
  | cons t tys ih =>
    rw [tryTypes]
    split
    · rfl
    · rename_i hnone
      rcases List.mem_cons.mp hmem with heq | hmem'
      · subst heq
        rw [hcs, dropStart_append] at hnone
        cases hnone
      · exact ih hmem'

theorem types_unique {ty1 ty2 : String} {r1 r2 : List Char}
    (h1 : ty1 ∈ VALID_TYPES) (h2 : ty2 ∈ VALID_TYPES)
    (heq : ty1.data ++ slashTask ++ r1 = ty2.data ++ slashTask ++ r2) :
    r1 = r2 := by
  have e1 : "feat".data = ['f', 'e', 'a', 't'] := rfl
  have e2 : "fix".data = ['f', 'i', 'x'] := rfl
  have e3 : "refactor".data = ['r', 'e', 'f', 'a', 'c', 't', 'o', 'r'] := rfl
  have e4 : "test".data = ['t', 'e', 's', 't'] := rfl
  have e5 : "docs".data = ['d', 'o', 'c', 's'] := rfl
  have e6 : "chore".data = ['c', 'h', 'o', 'r', 'e'] := rfl
  fin_cases h1 <;> fin_cases h2 <;>
    simp_all [slashTask, e1, e2, e3, e4, e5, e6]

theorem takeWhile_all (p : Char → Bool) (l : List Char) :
    (l.takeWhile p).all p = true := by
  induction l with
  | nil => rfl
  | cons c tl ih =>
    rw [List.takeWhile_cons]
    by_cases hp : p c = true
    · simp [hp, ih]
    · simp [hp]

theorem takeWhile_append_of {p : Char → Bool} {l1 l2 : List Char}
    (h1 : l1.all p = true)
    (h2 : ∀ x r, l2 = x :: r → p x = false) :
    (l1 ++ l2).takeWhile p = l1 ∧ (l1 ++ l2).dropWhile p = l2 := by
  induction l1 with
  | nil =>
    simp only [List.nil_append]
    cases l2 with
    | nil => exact ⟨rfl, rfl⟩
    | cons x r =>
      rw [List.takeWhile_cons, List.dropWhile_cons]
      simp [h2 x r rfl]
  | cons c t1 ih =>
    rw [List.all_cons, Bool.and_eq_true] at h1
    obtain ⟨ihtake, ihdrop⟩ := ih h1.2
    rw [List.cons_append, List.takeWhile_cons, List.dropWhile_cons]
    simp [h1.1, ihtake, ihdrop]

theorem midOk_iff (m : List Char) :
    midOk m = true ↔
    (m = [] ∨ ∃ seg, seg ≠ [] ∧ seg.all isSlugChar = true ∧
      m = '-' :: seg) := by
  cases m with
  | nil => simp [midOk]
  | cons c seg =>
    rw [show midOk (c :: seg) =
      (c == '-' && !seg.isEmpty && seg.all isSlugChar) from rfl]
    simp only [Bool.and_eq_true, beq_iff_eq, Bool.not_eq_true',
      List.isEmpty_eq_false]
    constructor
    · rintro ⟨⟨hc, hseg⟩, hall⟩
      exact Or.inr ⟨seg, hseg, hall, by rw [hc]⟩
    · rintro (h | ⟨seg', hne, hall, heq⟩)
      · cases h
      · injection heq with hch hsg
        subst hsg
        exact ⟨⟨hch, hne⟩, hall⟩

theorem isUp_of_dig_false {c : Char} (h : isDig c = true) :
    isUp c = false := by
  rw [Bool.eq_false_iff]
  intro hup
  simp only [isDig, Bool.and_eq_true, decide_eq_true_eq] at h
  simp only [isUp, Bool.and_eq_true, decide_eq_true_eq] at hup
  omega

theorem coreOf_cons {r : List Char} {c : Char} {rest : List Char}
    (h : r.reverse = c :: rest) :
    coreOf r = if isUp c then rest else c :: rest := by
  unfold coreOf
  rw [h]

theorem all_reverse_eq (p : Char → Bool) (l : List Char) :
    l.reverse.all p = l.all p := by
  induction l with
  | nil => rfl
  | cons c tl ih =>
    rw [List.reverse_cons, List.all_append, List.all_cons, ih]
    simp [Bool.and_comm]

theorem coreMatch_iff (core : List Char) :
    coreMatch core = true ↔
    ∃ mid d2,
      (mid = [] ∨ ∃ seg, seg ≠ [] ∧ seg.all isSlugChar = true ∧
        mid = '-' :: seg) ∧
      d2 ≠ [] ∧ d2.all isDig = true ∧
      core = d2.reverse ++ ('-' :: 'S' :: 'U' :: '-' :: []) ++ mid.reverse := by
  unfold coreMatch
  constructor
  · intro h
    rw [Bool.and_eq_true] at h
    obtain ⟨htake, hmatch⟩ := h
    have htake' : core.takeWhile isDig ≠ [] := by
      intro hc
      rw [hc] at htake
      simp at htake
    split at hmatch
    · rename_i midr heq
      have hdrop : core.dropWhile isDig = ['-', 'S', 'U', '-'] ++ midr :=
        dropStart_eq_some.mp heq
      refine ⟨midr.reverse, (core.takeWhile isDig).reverse,
        (midOk_iff _).mp hmatch, ?_, ?_, ?_⟩
      · simp [htake']
      · rw [all_reverse_eq]
        exact takeWhile_all isDig core
      · rw [List.reverse_reverse, List.reverse_reverse,
          List.append_assoc, ← hdrop, List.takeWhile_append_dropWhile]
    · cases hmatch
  · rintro ⟨mid, d2, hmid, hd2ne, hd2all, hcore⟩
    have hd2rall : d2.reverse.all isDig = true := by
      rw [all_reverse_eq]
      exact hd2all
    have hsplit := @takeWhile_append_of isDig d2.reverse
      ((('-' :: 'S' :: 'U' :: '-' :: []) : List Char) ++ mid.reverse) hd2rall
      (fun x r hxr => by
        rw [List.cons_append] at hxr
        injection hxr with h1 h2
        rw [← h1]
        decide)
    rw [hcore, List.append_assoc, hsplit.1, hsplit.2, Bool.and_eq_true]
    constructor
    · simp [hd2ne]
    · rw [show ('-' :: 'S' :: 'U' :: '-' :: []) ++ mid.reverse =
        ['-', 'S', 'U', '-'] ++ mid.reverse from rfl, dropStart_append]
      show midOk mid.reverse.reverse = true
      rw [List.reverse_reverse]
      exact (midOk_iff mid).mpr hmid

theorem tailMatch_iff (r : List Char) :
    tailMatch r = true ↔
    ∃ mid d2 lt,
      (mid = [] ∨ ∃ seg, seg ≠ [] ∧ seg.all isSlugChar = true ∧
        mid = '-' :: seg) ∧
      d2 ≠ [] ∧ d2.all isDig = true ∧
      (lt = [] ∨ ∃ c, isUp c = true ∧ lt = [c]) ∧
      r = mid ++ ('-' :: 'U' :: 'S' :: '-' :: []) ++ d2 ++ lt := by
  unfold tailMatch
  constructor
  · intro h
    cases hrev : r.reverse with
    | nil =>
      rw [show coreOf r = [] from by unfold coreOf; rw [hrev]] at h
      simp [coreMatch] at h
    | cons c rest =>
      rw [coreOf_cons hrev] at h
      have hr : r = rest.reverse ++ [c] := by
        have h2 := congrArg List.reverse hrev
        rw [List.reverse_reverse] at h2
        rw [h2, List.reverse_cons]
      by_cases hup : isUp c = true
      · rw [if_pos hup] at h
        obtain ⟨mid, d2, hmid, hd2ne, hd2all, hcore⟩ :=
          (coreMatch_iff rest).mp h
        refine ⟨mid, d2, [c], hmid, hd2ne, hd2all, Or.inr ⟨c, hup, rfl⟩, ?_⟩
        rw [hr, hcore]
        simp [List.reverse_append]
      · rw [if_neg hup] at h
        obtain ⟨mid, d2, hmid, hd2ne, hd2all, hcore⟩ :=
          (coreMatch_iff (c :: rest)).mp h
        refine ⟨mid, d2, [], hmid, hd2ne, hd2all, Or.inl rfl, ?_⟩
        have hr2 : r = (c :: rest).reverse := by
          rw [← hrev, List.reverse_reverse]
        rw [hr2, hcore]
        simp [List.reverse_append]
  · rintro ⟨mid, d2, lt, hmid, hd2ne, hd2all, hlt, hreq⟩
    rcases hlt with hlt | ⟨c, hup, hlt⟩
    · subst hlt
      have hrev : r.reverse =
          d2.reverse ++ ('-' :: 'S' :: 'U' :: '-' :: []) ++ mid.reverse := by
        rw [hreq]
        simp [List.reverse_append]
      cases hd2r : d2.reverse with
      | nil =>
        exfalso
        apply hd2ne
        have := congrArg List.reverse hd2r
        rw [List.reverse_reverse] at this
        simpa using this
      | cons x t =>
        have hxmem : x ∈ d2 := by
          have : x ∈ d2.reverse := by rw [hd2r]; exact List.mem_cons_self _ _
          exact List.mem_reverse.mp this
        have hxdig : isDig x = true := by
          rw [List.all_eq_true] at hd2all
          exact hd2all x hxmem
        rw [hd2r, List.append_assoc, List.cons_append] at hrev
        rw [coreOf_cons hrev, if_neg (by simp [isUp_of_dig_false hxdig])]
        apply (coreMatch_iff _).mpr
        refine ⟨mid, d2, hmid, hd2ne, hd2all, ?_⟩
        rw [hd2r]
        simp [List.cons_append, List.append_assoc]
    · subst hlt
      have hrev : r.reverse =
          c :: (d2.reverse ++ ('-' :: 'S' :: 'U' :: '-' :: []) ++
            mid.reverse) := by
        rw [hreq]
        simp [List.reverse_append]
      rw [coreOf_cons hrev, if_pos hup]
      apply (coreMatch_iff _).mpr
      exact ⟨mid, d2, hmid, hd2ne, hd2all, rfl⟩

theorem branchPatternMatch_iff (cs : List Char) :
    branchPatternMatch cs = true ↔ BranchShapeL cs := by
  unfold branchPatternMatch
  constructor
  · intro h
    split at h
    · cases h
    · rename_i r heq
      rw [Bool.and_eq_true] at h
      obtain ⟨htake, htail⟩ := h
      obtain ⟨ty, hmem, hcs⟩ := tryTypes_some heq
      obtain ⟨mid, d2, lt, hmid, hd2ne, hd2all, hlt, hrd⟩ :=
        (tailMatch_iff _).mp htail
      refine ⟨ty, r.takeWhile isDig, mid, d2, lt, hmem, ?_,
        takeWhile_all isDig r, hmid, hd2ne, hd2all, hlt, ?_⟩
      · intro hc
        rw [hc] at htake
        simp at htake
      · have hreq : r = r.takeWhile isDig ++
            (mid ++ ('-' :: 'U' :: 'S' :: '-' :: []) ++ d2 ++ lt) := by
          rw [← hrd, List.takeWhile_append_dropWhile]
        rw [hcs]
        conv_lhs => rw [hreq]
        simp [List.append_assoc]
  · rintro ⟨ty, d1, mid, d2, lt, hmem, hd1ne, hd1all, hmid, hd2ne,
      hd2all, hlt, hcs⟩
    have hR : cs = ty.data ++ slashTask ++
        (d1 ++ (mid ++ ('-' :: 'U' :: 'S' :: '-' :: []) ++ d2 ++ lt)) := by
      rw [hcs]
      simp [List.append_assoc]
    obtain ⟨r, hr⟩ := Option.isSome_iff_exists.mp (tryTypes_isSome hmem hR)
    rw [hr]
    obtain ⟨ty', hmem', hcs'⟩ := tryTypes_some hr
    have hrR : r = d1 ++
        (mid ++ ('-' :: 'U' :: 'S' :: '-' :: []) ++ d2 ++ lt) :=
      types_unique hmem' hmem (by rw [← hcs', ← hR])
    have hhead : ∀ x r', mid ++ ('-' :: 'U' :: 'S' :: '-' :: []) ++ d2 ++
        lt = x :: r' → isDig x = false := by
      intro x r' hxr
      rcases hmid with hm | ⟨seg, hs1, hs2, hm⟩ <;>
        (subst hm
         simp only [List.nil_append, List.cons_append,
           List.append_assoc] at hxr
         injection hxr with h1 h2
         rw [← h1]
         decide)
    have hsplit := takeWhile_append_of hd1all hhead
    rw [hrR]
    show (!(List.takeWhile isDig (d1 ++ (mid ++
        ('-' :: 'U' :: 'S' :: '-' :: []) ++ d2 ++ lt))).isEmpty &&
      tailMatch (List.dropWhile isDig (d1 ++ (mid ++
        ('-' :: 'U' :: 'S' :: '-' :: []) ++ d2 ++ lt)))) = true
    rw [hsplit.1, hsplit.2, Bool.and_eq_true]
    constructor
    · simp [hd1ne]
    · exact (tailMatch_iff _).mpr ⟨mid, d2, lt, hmid, hd2ne, hd2all,
        hlt, rfl⟩

theorem append_ne_empty (s t : String) (h : s ≠ "") : s ++ t ≠ "" := by
  intro hcon
  apply h
  have hd := congrArg String.data hcon
  rw [data_append, show ("" : String).data = [] from rfl] at hd
  exact String.ext (List.append_eq_nil.mp hd).1

theorem generate_error_message_ne (branch : String) :
    generate_error_message branch ≠ "" := by
  unfold generate_error_message
  split
  · exact append_ne_empty _ _ (append_ne_empty _ _ (by decide))
  · split
    · exact append_ne_empty _ _ (append_ne_empty _ _ (by decide))
    · exact append_ne_empty _ _ (append_ne_empty _ _ (by decide))

/-- C8: `validate_branch_name` returns `(true, "")` exactly when the
branch is `main` or matches the grammar
`{feat|fix|refactor|test|docs|chore}/TASK-<digits>` with an optional
`-<lowercase-alphanumeric-hyphen segment>`, then `-US-<digits>` with an
optional single trailing uppercase letter; every other branch gets
`(false, msg)` with a non-empty message. -/
theorem branch_validation_decision (b : String) :
    (validate_branch_name b = (true, "") ↔ (b = "main" ∨ BranchShape b)) ∧
    ((validate_branch_name b).1 = false →
      (validate_branch_name b).2 ≠ "") := by
  constructor
  · constructor
    · intro h
      unfold validate_branch_name at h
      by_cases hm : b = "main"
      · exact Or.inl hm
      · rw [if_neg hm] at h
        by_cases hp : branchPatternMatch b.data = true
        · exact Or.inr ((branchPatternMatch_iff b.data).mp hp)
        · rw [if_neg hp] at h
          injection h with h1 h2
          cases h1
    · intro h
      unfold validate_branch_name
      by_cases hm : b = "main"
      · rw [if_pos hm]
      · rw [if_neg hm]
        rcases h with h | h
        · exact absurd h hm
        · rw [if_pos ((branchPatternMatch_iff b.data).mpr h)]
  · intro h
    unfold validate_branch_name at h ⊢
    by_cases hm : b = "main"
    · rw [if_pos hm] at h
      cases h
    · rw [if_neg hm] at h ⊢
      by_cases hp : branchPatternMatch b.data = true
      · rw [if_pos hp] at h
        cases h
      · rw [if_neg hp]
        exact generate_error_message_ne b

/-- Witness for the C8 theorem: `main` is accepted. -/
theorem branch_validation_decision_witness :
    validate_branch_name "main" = (true, "") :=
  (branch_validation_decision "main").1.mpr (Or.inl rfl)

/-! ## Cross-Reference Linker (C2)

The Context Index Builder is not under `src/`; the Linker below is
modelled from the spec (§3 relationship fields, §4.5 algorithm): three
steps applied in order, each inserting relationship ids with
deduplication on insertion, reading only data the Linker never mutates
(task→story references, commit records, and the key sets of the four
mappings). -/

/-- Modelled from the spec: the relationship fields of a `StoryRecord`
populated by the Linker (task ids, commit hashes, touched file paths, the
last one order-preserving and deduplicated). -/
structure StoryRecord where
  tasks : List String
  commits : List String
  implementation_files : List String
  deriving Repr, DecidableEq

/-- Modelled from the spec: a `TaskRecord` with its owning story id and
the commit set filled by the Linker. -/
structure TaskRecord where
  story : String
  commits : List String
  deriving Repr, DecidableEq

/-- Modelled from the spec: a `CommitRecord` with the story ids and task
ids textually referenced in the message and the touched file paths;
immutable once captured. -/
structure CommitRecord where
  story_refs : List String
  task_refs : List String
  files : List String
  deriving Repr, DecidableEq

/-- Modelled from the spec: the relationship fields of a `FileRecord`. -/
structure FileRecord where
  stories : List String
  tasks : List String
  commits : List String
  deriving Repr, DecidableEq

/-- The four keyed record collections consumed and mutated by the
Linker. -/
structure LinkState where
  stories : List (String × StoryRecord)
  tasks : List (String × TaskRecord)
  commits : List (String × CommitRecord)
  files : List (String × FileRecord)
  deriving Repr, DecidableEq

/-- Deduplicating insertion preserving first-seen order (§4.5 tie-break
policy: sets deduplicate on insertion; ordered lists keep first-seen
order and also deduplicate). -/
def addU (x : String) (l : List String) : List String :=
  if memb x l then l else l ++ [x]

/-- Update the record at the first matching key, leaving the mapping
unchanged when the key is absent. -/
def updAt {α : Type} (k : String) (f : α → α) :
    List (String × α) → List (String × α)
  | [] => []
  | (k', v) :: rest =>
    if k' = k then (k', f v) :: rest else (k', v) :: updAt k f rest

/-- Existence of a key in a mapping. -/
def hasKey {α : Type} (k : String) (m : List (String × α)) : Bool :=
  (lookupA k m).isSome

/-- Modelled from the spec: reduction of a decorated task reference
(`TASK-###-description`) to its base `TASK-###` form, assuming the fixed
8-character prefix shape (§4.5 step 2, §9). -/
def baseTaskId (tr : String) : String := String.mk (tr.data.take 8)

/-- One bidirectional relationship edge recorded by the Linker. -/
inductive Edge where
  | storyTask (sid tid : String)
  | storyCommit (sid h : String)
  | storyFile (sid p : String)
  | taskCommit (tid h : String)
  | fileCommit (p h : String)
  | fileStory (p sid : String)
  | fileTask (p tid : String)
  deriving Repr, DecidableEq

/-- Record one edge in the state (deduplicated insertion at the target
record; no-op when the target id does not exist). -/
def applyEdge (st : LinkState) : Edge → LinkState
  | .storyTask sid tid =>
    { st with
      stories :=
        updAt sid (fun r => { r with tasks := addU tid r.tasks }) st.stories }
  | .storyCommit sid h =>
    { st with
      stories :=
        updAt sid (fun r => { r with commits := addU h r.commits }) st.stories }
  | .storyFile sid p =>
    { st with
      stories :=
        updAt sid
          (fun r =>
            { r with implementation_files := addU p r.implementation_files })
          st.stories }
  | .taskCommit tid h =>
    { st with
      tasks :=
        updAt tid (fun r => { r with commits := addU h r.commits }) st.tasks }
  | .fileCommit p h =>
    { st with
      files :=
        updAt p (fun r => { r with commits := addU h r.commits }) st.files }
  | .fileStory p sid =>
    { st with
      files :=
        updAt p (fun r => { r with stories := addU sid r.stories }) st.files }
  | .fileTask p tid =>
    { st with
      files :=
        updAt p (fun r => { r with tasks := addU tid r.tasks }) st.files }

/-- Step 1 over the (task id, story id) pairs: for every task whose story
exists, the task id goes into that story's task set. -/
def step1EdgesP (pairs : List (String × String))
    (stories : List (String × StoryRecord)) : List Edge :=
  (pairs.map (fun kt =>
    if hasKey kt.2 stories then [Edge.storyTask kt.2 kt.1] else [])).flatten

/-- Step 1: task → story edges. -/
def step1Edges (st : LinkState) : List Edge :=
  step1EdgesP (st.tasks.map (fun kt => (kt.1, kt.2.story))) st.stories

/-- Step 2 for one commit: referenced existing stories get the commit
hash; referenced task ids, reduced to base form, get the commit hash. -/
def commitEdges2 (st : LinkState) (h : String) (c : CommitRecord) :
    List Edge :=
  (c.story_refs.map (fun sid =>
    if hasKey sid st.stories then [Edge.storyCommit sid h] else [])).flatten
  ++
  (c.task_refs.map (fun tr =>
    if hasKey (baseTaskId tr) st.tasks then
      [Edge.taskCommit (baseTaskId tr) h] else [])).flatten

/-- The story ids of a commit resolved in step 2. -/
def resolvedStories (st : LinkState) (c : CommitRecord) : List String :=
  c.story_refs.filter (fun sid => hasKey sid st.stories)

/-- The base task ids of a commit resolved in step 2. -/
def resolvedTasks (st : LinkState) (c : CommitRecord) : List String :=
  (c.task_refs.map baseTaskId).filter (fun tid => hasKey tid st.tasks)

/-- Step 3 for one file of one commit: if the file has an annotation
record, it gets the commit hash, the commit's resolved story and task ids
propagate onto the file, and the file path is appended symmetrically to
each resolved story's file list. -/
def fileEdges (st : LinkState) (h : String) (c : CommitRecord)
    (p : String) : List Edge :=
  if hasKey p st.files then
    [Edge.fileCommit p h] ++
    ((resolvedStories st c).map (fun sid =>
      [Edge.fileStory p sid, Edge.storyFile sid p])).flatten ++
    (resolvedTasks st c).map (fun tid => Edge.fileTask p tid)
  else []

/-- All edges of the three steps, in application order; computed only
from data the Linker never mutates. -/
def computeEdges (st : LinkState) : List Edge :=
  step1Edges st ++
  (st.commits.map (fun kc => commitEdges2 st kc.1 kc.2)).flatten ++
  (st.commits.map (fun kc =>
    (kc.2.files.map (fun p => fileEdges st kc.1 kc.2 p)).flatten)).flatten

/-- Record a list of edges in order. -/
def applyEdges (es : List Edge) (st : LinkState) : LinkState :=
  es.foldl applyEdge st

/-- Modelled from the spec: the Cross-Reference Linker (§4.5): compute
the bidirectional edges of steps 1-3 and record them in the four
mappings. -/
def crossReferenceLinker (st : LinkState) : LinkState :=
  applyEdges (computeEdges st) st

/-! ## Theorems about the Linker (C2) -/

theorem lookupA_updAt {α : Type} (k' k : String) (f : α → α)
    (m : List (String × α)) :
    lookupA k' (updAt k f m) =
    if k = k' then (lookupA k' m).map f else lookupA k' m := by
  induction m with
  | nil =>
    by_cases h : k = k' <;> simp [updAt, lookupA, h]
  | cons av rest ih =>
    obtain ⟨a, v⟩ := av
    by_cases ha : a = k
    · subst ha
      by_cases hk : a = k'
      · simp [updAt, lookupA, hk]
      · simp [updAt, lookupA, hk]
    · by_cases hak : a = k'
      · subst hak
        have hkk' : ¬k = a := fun h => ha h.symm
        simp [updAt, lookupA, ha, hkk']
      · simp [updAt, lookupA, ha, hak, ih]

theorem hasKey_updAt {α : Type} (k' k : String) (f : α → α)
    (m : List (String × α)) :
    hasKey k' (updAt k f m) = hasKey k' m := by
  unfold hasKey
  rw [lookupA_updAt]
  by_cases h : k = k'
  · rw [if_pos h]
    cases lookupA k' m <;> rfl
  · rw [if_neg h]

theorem updAt_taskpairs (tid h : String) (m : List (String × TaskRecord)) :
    (updAt tid (fun r => { r with commits := addU h r.commits }) m).map
      (fun kt => (kt.1, kt.2.story)) =
    m.map (fun kt => (kt.1, kt.2.story)) := by
  induction m with
  | nil => rfl
  | cons av rest ih =>
    obtain ⟨a, v⟩ := av
    by_cases ha : a = tid
    · simp [updAt, ha]
    · simp [updAt, ha, ih]

theorem computeEdges_applyEdge (st : LinkState) (e : Edge) :
    computeEdges (applyEdge st e) = computeEdges st := by
  cases e <;>
    simp [computeEdges, applyEdge, step1Edges, step1EdgesP, commitEdges2,
      resolvedStories, resolvedTasks, fileEdges, hasKey_updAt,
      updAt_taskpairs]

theorem memb_addU_self (x : String) (l : List String) :
    memb x (addU x l) = true := by
  unfold addU
  by_cases h : memb x l = true
  · rw [if_pos h]
    exact h
  · rw [if_neg h, memb_iff]
    exact List.mem_append_right _ (List.mem_singleton.mpr rfl)

theorem memb_addU_mono {y : String} {l : List String} (x : String)
    (h : memb y l = true) : memb y (addU x l) = true := by
  unfold addU
  split
  · exact h
  · rw [memb_iff]
    exact List.mem_append_left _ ((memb_iff _ _).mp h)

theorem addU_of_memb {x : String} {l : List String}
    (h : memb x l = true) : addU x l = l := by
  unfold addU
  rw [if_pos h]

theorem updAt_id {α : Type} (k : String) (f : α → α)
    (m : List (String × α))
    (h : ∀ v, lookupA k m = some v → f v = v) : updAt k f m = m := by
  induction m with
  | nil => rfl
  | cons av rest ih =>
    obtain ⟨a, v⟩ := av
    by_cases ha : a = k
    · subst ha
      rw [show updAt a f ((a, v) :: rest) = (a, f v) :: rest from by
        simp [updAt]]
      rw [h v (by simp [lookupA])]
    · rw [show updAt k f ((a, v) :: rest) = (a, v) :: updAt k f rest from by
        simp [updAt, ha]]
      rw [ih (fun v' hv' => h v' (by simpa [lookupA, ha] using hv'))]

/-- Presence of an edge's element at a story key (vacuous when the key is
absent). -/
def satS (sid : String) (P : StoryRecord → Bool) (st : LinkState) : Prop :=
  ∀ r, lookupA sid st.stories = some r → P r = true

/-- Presence of an edge's element at a task key. -/
def satT (tid : String) (P : TaskRecord → Bool) (st : LinkState) : Prop :=
  ∀ r, lookupA tid st.tasks = some r → P r = true

/-- Presence of an edge's element at a file key. -/
def satF (p : String) (P : FileRecord → Bool) (st : LinkState) : Prop :=
  ∀ r, lookupA p st.files = some r → P r = true

/-- Presence of an edge in the state. -/
def edgeSat (st : LinkState) : Edge → Prop
  | .storyTask sid tid => satS sid (fun r => memb tid r.tasks) st
  | .storyCommit sid h => satS sid (fun r => memb h r.commits) st
  | .storyFile sid p => satS sid (fun r => memb p r.implementation_files) st
  | .taskCommit tid h => satT tid (fun r => memb h r.commits) st
  | .fileCommit p h => satF p (fun r => memb h r.commits) st
  | .fileStory p sid => satF p (fun r => memb sid r.stories) st
  | .fileTask p tid => satF p (fun r => memb tid r.tasks) st

theorem sat_updAt {α : Type} {key : String} {P : α → Bool}
    {m : List (String × α)} (k : String) (f : α → α)
    (hsat : ∀ r, lookupA key m = some r → P r = true)
    (hf : ∀ r, P r = true → P (f r) = true) :
    ∀ r, lookupA key (updAt k f m) = some r → P r = true := by
  intro r hr
  rw [lookupA_updAt] at hr
  by_cases hk : k = key
  · rw [if_pos hk] at hr
    cases ho : lookupA key m with
    | none => rw [ho] at hr; cases hr
    | some r0 =>
      rw [ho] at hr
      simp only [Option.map_some'] at hr
      cases hr
      exact hf r0 (hsat r0 ho)
  · rw [if_neg hk] at hr
    exact hsat r hr

theorem sat_updAt_self {α : Type} {key : String} {P : α → Bool}
    {m : List (String × α)} (f : α → α) (hPf : ∀ r, P (f r) = true) :
    ∀ r, lookupA key (updAt key f m) = some r → P r = true := by
  intro r hr
  rw [lookupA_updAt, if_pos rfl] at hr
  cases ho : lookupA key m with
  | none => rw [ho] at hr; cases hr
  | some r0 =>
    rw [ho] at hr
    simp only [Option.map_some'] at hr
    cases hr
    exact hPf r0

theorem edgeSat_mono (st : LinkState) (e e' : Edge) (h : edgeSat st e) :
    edgeSat (applyEdge st e') e := by
  cases e <;> cases e' <;>
    first
      | exact h
      | exact sat_updAt _ _ h (fun r hr => hr)
      | exact sat_updAt _ _ h (fun r hr => memb_addU_mono _ hr)

theorem edgeSat_self (st : LinkState) (e : Edge) :
    edgeSat (applyEdge st e) e := by
  cases e <;> exact sat_updAt_self _ (fun r => memb_addU_self _ _)

theorem edgeSat_applyEdges (es : List Edge) (st : LinkState) (e : Edge)
    (h : edgeSat st e) : edgeSat (applyEdges es st) e := by
  induction es generalizing st with
  | nil => exact h
  | cons e' rest ih => exact ih (applyEdge st e') (edgeSat_mono st e e' h)

theorem edgeSat_of_mem {es : List Edge} {st : LinkState} {e : Edge}
    (h : e ∈ es) : edgeSat (applyEdges es st) e := by
  induction es generalizing st with
  | nil => cases h
  | cons e' rest ih =>
    rcases List.mem_cons.mp h with heq | hmem
    · subst heq
      exact edgeSat_applyEdges rest _ e (edgeSat_self st e)
    · exact ih hmem

theorem applyEdge_of_sat (st : LinkState) (e : Edge) (h : edgeSat st e) :
    applyEdge st e = st := by
  cases e with
  | storyTask sid tid =>
    have hupd := updAt_id sid
      (fun r => { r with tasks := addU tid r.tasks }) st.stories
      (fun v hv => by simp [addU_of_memb (h v hv)])
    simp only [applyEdge, hupd]
  | storyCommit sid hh =>
    have hupd := updAt_id sid
      (fun r => { r with commits := addU hh r.commits }) st.stories
      (fun v hv => by simp [addU_of_memb (h v hv)])
    simp only [applyEdge, hupd]
  | storyFile sid p =>
    have hupd := updAt_id sid
      (fun r =>
        { r with implementation_files := addU p r.implementation_files })
      st.stories (fun v hv => by simp [addU_of_memb (h v hv)])
    simp only [applyEdge, hupd]
  | taskCommit tid hh =>
    have hupd := updAt_id tid
      (fun r => { r with commits := addU hh r.commits }) st.tasks
      (fun v hv => by simp [addU_of_memb (h v hv)])
    simp only [applyEdge, hupd]
  | fileCommit p hh =>
    have hupd := updAt_id p
      (fun r => { r with commits := addU hh r.commits }) st.files
      (fun v hv => by simp [addU_of_memb (h v hv)])
    simp only [applyEdge, hupd]
  | fileStory p sid =>
    have hupd := updAt_id p
      (fun r => { r with stories := addU sid r.stories }) st.files
      (fun v hv => by simp [addU_of_memb (h v hv)])
    simp only [applyEdge, hupd]
  | fileTask p tid =>
    have hupd := updAt_id p
      (fun r => { r with tasks := addU tid r.tasks }) st.files
      (fun v hv => by simp [addU_of_memb (h v hv)])
    simp only [applyEdge, hupd]

theorem applyEdges_of_sat (es : List Edge) (st : LinkState)
    (h : ∀ e ∈ es, edgeSat st e) : applyEdges es st = st := by
  induction es with
  | nil => rfl
  | cons e rest ih =>
    have h1 : applyEdges (e :: rest) st = applyEdges rest (applyEdge st e) :=
      rfl
    rw [h1, applyEdge_of_sat st e (h e (List.mem_cons_self _ _))]
    exact ih (fun e' he' => h e' (List.mem_cons_of_mem _ he'))

theorem computeEdges_applyEdges (es : List Edge) (st : LinkState) :
    computeEdges (applyEdges es st) = computeEdges st := by
  induction es generalizing st with
  | nil => rfl
  | cons e rest ih =>
    have h1 : applyEdges (e :: rest) st = applyEdges rest (applyEdge st e) :=
      rfl
    rw [h1, ih (applyEdge st e), computeEdges_applyEdge]

theorem linker_idem (st : LinkState) :
    crossReferenceLinker (crossReferenceLinker st) =
    crossReferenceLinker st := by
  unfold crossReferenceLinker
  rw [computeEdges_applyEdges]
  exact applyEdges_of_sat _ _ (fun e he => edgeSat_of_mem he)

/-- All relationship collections of the state are free of duplicates. -/
def NodupState (st : LinkState) : Prop :=
  (∀ kv ∈ st.stories, kv.2.tasks.Nodup ∧ kv.2.commits.Nodup ∧
    kv.2.implementation_files.Nodup) ∧
  (∀ kv ∈ st.tasks, kv.2.commits.Nodup) ∧
  (∀ kv ∈ st.files, kv.2.stories.Nodup ∧ kv.2.tasks.Nodup ∧
    kv.2.commits.Nodup)

theorem addU_nodup {l : List String} (x : String) (h : l.Nodup) :
    (addU x l).Nodup := by
  unfold addU
  split
  · exact h
  · rename_i hm
    rw [List.nodup_append]
    refine ⟨h, List.nodup_singleton x, fun a ha hax => ?_⟩
    rw [List.mem_singleton] at hax
    subst hax
    exact hm ((memb_iff a l).mpr ha)

theorem mem_updAt {α : Type} {kv : String × α} {k : String} {f : α → α}
    {m : List (String × α)} (h : kv ∈ updAt k f m) :
    kv ∈ m ∨ ∃ kv0, kv0 ∈ m ∧ kv = (kv0.1, f kv0.2) := by
  induction m with
  | nil => cases h
  | cons av rest ih =>
    obtain ⟨a, v⟩ := av
    by_cases ha : a = k
    · rw [show updAt k f ((a, v) :: rest) = (a, f v) :: rest from by
        simp [updAt, ha]] at h
      rcases List.mem_cons.mp h with heq | hmem
      · exact Or.inr ⟨(a, v), List.mem_cons_self _ _, heq⟩
      · exact Or.inl (List.mem_cons_of_mem _ hmem)
    · rw [show updAt k f ((a, v) :: rest) = (a, v) :: updAt k f rest from by
        simp [updAt, ha]] at h
      rcases List.mem_cons.mp h with heq | hmem
      · exact Or.inl (heq ▸ List.mem_cons_self _ _)
      · rcases ih hmem with h1 | ⟨kv0, h1, h2⟩
        · exact Or.inl (List.mem_cons_of_mem _ h1)
        · exact Or.inr ⟨kv0, List.mem_cons_of_mem _ h1, h2⟩

theorem NodupState_applyEdge {st : LinkState} (e : Edge)
    (h : NodupState st) : NodupState (applyEdge st e) := by
  obtain ⟨hs, ht, hf⟩ := h
  cases e with
  | storyTask sid tid =>
    refine ⟨?_, ht, hf⟩
    intro kv hkv
    rcases mem_updAt hkv with hm | ⟨kv0, hm, heq⟩
    · exact hs kv hm
    · obtain ⟨h1, h2, h3⟩ := hs kv0 hm
      rw [heq]
      exact ⟨addU_nodup _ h1, h2, h3⟩
  | storyCommit sid hh =>
    refine ⟨?_, ht, hf⟩
    intro kv hkv
    rcases mem_updAt hkv with hm | ⟨kv0, hm, heq⟩
    · exact hs kv hm
    · obtain ⟨h1, h2, h3⟩ := hs kv0 hm
      rw [heq]
      exact ⟨h1, addU_nodup _ h2, h3⟩
  | storyFile sid p =>
    refine ⟨?_, ht, hf⟩
    intro kv hkv
    rcases mem_updAt hkv with hm | ⟨kv0, hm, heq⟩
    · exact hs kv hm
    · obtain ⟨h1, h2, h3⟩ := hs kv0 hm
      rw [heq]
      exact ⟨h1, h2, addU_nodup _ h3⟩
  | taskCommit tid hh =>
    refine ⟨hs, ?_, hf⟩
    intro kv hkv
    rcases mem_updAt hkv with hm | ⟨kv0, hm, heq⟩
    · exact ht kv hm
    · rw [heq]
      exact addU_nodup _ (ht kv0 hm)
  | fileCommit p hh =>
    refine ⟨hs, ht, ?_⟩
    intro kv hkv
    rcases mem_updAt hkv with hm | ⟨kv0, hm, heq⟩
    · exact hf kv hm
    · obtain ⟨h1, h2, h3⟩ := hf kv0 hm
      rw [heq]
      exact ⟨h1, h2, addU_nodup _ h3⟩
  | fileStory p sid =>
    refine ⟨hs, ht, ?_⟩
    intro kv hkv
    rcases mem_updAt hkv with hm | ⟨kv0, hm, heq⟩
    · exact hf kv hm
    · obtain ⟨h1, h2, h3⟩ := hf kv0 hm
      rw [heq]
      exact ⟨addU_nodup _ h1, h2, h3⟩
  | fileTask p tid =>
    refine ⟨hs, ht, ?_⟩
    intro kv hkv
    rcases mem_updAt hkv with hm | ⟨kv0, hm, heq⟩
    · exact hf kv hm
    · obtain ⟨h1, h2, h3⟩ := hf kv0 hm
      rw [heq]
      exact ⟨h1, addU_nodup _ h2, h3⟩

theorem NodupState_applyEdges (es : List Edge) (st : LinkState)
    (h : NodupState st) : NodupState (applyEdges es st) := by
  induction es generalizing st with
  | nil => exact h
  | cons e rest ih => exact ih (applyEdge st e) (NodupState_applyEdge e h)

/-- C2: the Cross-Reference Linker is idempotent — running it twice
produces exactly the same state (hence the same relationship edge sets)
as running it once, and duplicate-free relationship sets stay
duplicate-free, so no duplicate ids are ever inserted and no set grows on
the repeated run. -/
theorem linker_idempotent (st : LinkState) :
    crossReferenceLinker (crossReferenceLinker st) =
      crossReferenceLinker st ∧
    (NodupState st → NodupState (crossReferenceLinker st)) :=
  ⟨linker_idem st, fun h => NodupState_applyEdges _ _ h⟩

/-- A small concrete builder state: one story, one task, one commit
referencing both (the task with a descriptive suffix), one annotated
file. -/
def exState : LinkState :=
  ⟨[("US-001", ⟨[], [], []⟩)],
   [("TASK-001", ⟨"US-001", []⟩)],
   [("abc123", ⟨["US-001"], ["TASK-001-foo"], ["a.py"]⟩)],
   [("a.py", ⟨[], [], []⟩)]⟩

/-- Witness for the C2 theorem: the linked concrete state has
duplicate-free relationship sets. -/
theorem linker_idempotent_witness :
    NodupState (crossReferenceLinker exState) :=
  (linker_idempotent exState).2 (by unfold NodupState; decide)

/-! ## Concrete evaluation checks

Anonymous sanity checks evaluating the executable definitions on concrete
inputs. -/

example : crossReferenceLinker (crossReferenceLinker exState) =
    crossReferenceLinker exState := by decide
example : (lookupA "US-001" (crossReferenceLinker exState).stories).map
    StoryRecord.tasks = some ["TASK-001"] := by decide

example : branchPatternMatch "feat/TASK-001-US-001".data = true := by decide
example : branchPatternMatch "feat/TASK-001-clerk-mounting-US-001".data = true := by
  decide
example : branchPatternMatch "fix/TASK-042-login-tests-US-001B".data = true := by
  decide
example : branchPatternMatch "feature/US-001".data = false := by decide
example : branchPatternMatch "feat/TASK-001-US-001x".data = false := by decide
example : branchPatternMatch "feat/TASK--US-001".data = false := by decide
example : branchPatternMatch "feat/TASK-1-Clerk-US-2".data = false := by decide
example : (validate_branch_name "main").1 = true := by decide

example : "ab".data = ['a', 'b'] := rfl
example : containsSub "hello world" "lo w" = true := by decide
example : pyTruthy (some "x") = true := by decide
example : slugify "Login  Flow!" = "login-flow" := by decide
example : get_all_story_ids (some ["TEMPLATE.md", "US-001-auth-x.md", "US-001B-auth-y.md"]) =
    [("001", ["US-001", "US-001B"])] := by decide
example : get_next_story_id (some ["US-007-auth-x.md"]) = "US-008" := by decide
example : (validate_story_id_unique (some ["US-001-auth-x.md"]) "US-001").1 = false := by decide
example : (create_story (some ["TEMPLATE.md", "US-001-a-b.md"]) "auth" "T" "feature" "high"
    (some "US-001") none "tc" "2026-01-01").isOk = false := by decide
example : (create_story (some ["TEMPLATE.md"]) "auth" "Log In" "feature" "high"
    (some "US-002") (some "B") "id={story_id}" "2026-01-01").toOption =
    some ⟨"US-002B", "US-002B-auth-log-in.md", "id=US-002B"⟩ := by decide
